import Mathlib

/-!
Verification of the MemSurfer triangle-mesh core (`TriMesh.cpp`, `TriMesh_cgal.cpp`).

The C++ code is shallowly embedded: scalar coordinates (C++ `float`) become `ℚ`,
vertex positions become triples `ℚ × ℚ × ℚ`, faces become triples of `Nat`
vertex indices, and fallible member functions become `Except String`-valued
functions.  Machine-integer wrap-around (the `uint8_t` incidence counters of
`write_binary`, the `size_t` loop bound of `need_boundary`) is modelled with
explicit `% 2^w` arithmetic.  Square roots (face areas, vector norms) are the
only non-rational quantities the code computes; they enter the statements as
explicit parameters constrained by their defining equation.

The vector helpers the sources use (`DOT`, `CROSS`, `len2`, `normalize`)
live in `TriMesh.hpp`, which is not among the sources; `DOT`, `CROSS` and
`len2` are the standard scalar product, cross product and squared length the
spec describes, and `normalize` is modelled from the spec where it is used.
The OpenMP-annotated loops are embedded with their sequential semantics.
-/

/-- Vertex positions (`Vertex`) are triples of scalars; the 2D case stores 0
in the third coordinate, exactly as the C++ code does. -/
abbrev Vec3 := ℚ × ℚ × ℚ

/-- A face (`Face`) is an ordered triple of vertex indices. -/
abbrev Face := Nat × Nat × Nat

/-- `f[k]` for a face, with the index taken modulo 3 (every C++ access site
writes `f[(j+c)%3]`; building the reduction in keeps the embedding total). -/
def fidx (f : Face) (k : Nat) : Nat :=
  if k % 3 = 0 then f.1 else if k % 3 = 1 then f.2.1 else f.2.2

/-- Coordinate `d` of a vertex (0, 1 or 2; other values read 0). -/
def qget (v : Vec3) (d : Nat) : ℚ :=
  if d = 0 then v.1 else if d = 1 then v.2.1 else if d = 2 then v.2.2 else 0

/-- Write coordinate `d` of a vertex (indices above 2 leave it unchanged). -/
def qset (v : Vec3) (d : Nat) (x : ℚ) : Vec3 :=
  if d = 0 then (x, v.2.1, v.2.2)
  else if d = 1 then (v.1, x, v.2.2)
  else if d = 2 then (v.1, v.2.1, x) else v

def addV (a b : Vec3) : Vec3 := (a.1 + b.1, a.2.1 + b.2.1, a.2.2 + b.2.2)

def subV (a b : Vec3) : Vec3 := (a.1 - b.1, a.2.1 - b.2.1, a.2.2 - b.2.2)

def smulV (c : ℚ) (a : Vec3) : Vec3 := (c * a.1, c * a.2.1, c * a.2.2)

/-- `DOT`: the scalar product of two vectors. -/
def dotV (a b : Vec3) : ℚ := a.1 * b.1 + a.2.1 * b.2.1 + a.2.2 * b.2.2

/-- `CROSS`: the cross product of two vectors. -/
def crossV (a b : Vec3) : Vec3 :=
  (a.2.1 * b.2.2 - a.2.2 * b.2.1,
   a.2.2 * b.1 - a.1 * b.2.2,
   a.1 * b.2.1 - a.2.1 * b.1)

/-- `len2`: the squared length of a vector. -/
def len2V (a : Vec3) : ℚ := dotV a a

/-- Vertex `i` of the vertex array (out-of-range reads return the origin;
the C++ code indexes the raw `std::vector`). -/
def vgetD (vs : List Vec3) (i : Nat) : Vec3 := vs.getD i (0, 0, 0)

/-- `TriMesh::set_dimensionality` (TriMesh.cpp:55-64): the argument is stored
into `mDim` first and validated afterwards; the function returns the new
`mDim` together with the outcome (`ok` or the thrown invalid-argument). -/
def set_dimensionality (d : Nat) : Nat × Except String Bool :=
  let mDim := d
  if mDim ≠ 2 ∧ mDim ≠ 3 then
    (mDim, Except.error "Invalid dimensionality of vertices")
  else (mDim, Except.ok true)

/-- The periodic bounding box of `TriMeshPeriodic`: two corners and the
`bbox_valid` flag. -/
structure BBoxState where
  box0 : Vec3
  box1 : Vec3
  valid : Bool
deriving DecidableEq

/-- `TriMeshPeriodic::set_bbox` (TriMesh.cpp:405-430): `vals` is the `float*`
argument read at indices `0..n-1`, `mDim` the mesh dimensionality.  The four
accepted shapes are `(n,mDim) ∈ {(2,2),(3,3),(4,2),(6,3)}`; anything else
throws `std::invalid_argument`.  On success `bbox_valid` is set. -/
def set_bbox (mDim : Nat) (vals : List ℚ) (n : Nat) : Except String BBoxState :=
  let g := fun i => vals.getD i 0
  if n = 2 ∧ mDim = 2 then
    Except.ok ⟨(0, 0, 0), (g 0, g 1, 0), true⟩
  else if n = 3 ∧ mDim = 3 then
    Except.ok ⟨(0, 0, 0), (g 0, g 1, g 2), true⟩
  else if n = 4 ∧ mDim = 2 then
    Except.ok ⟨(g 0, g 1, 0), (g 2, g 3, 0), true⟩
  else if n = 6 ∧ mDim = 3 then
    Except.ok ⟨(g 0, g 1, g 2), (g 3, g 4, g 5), true⟩
  else
    Except.error "Invalid periodic box"

/-- Claim C1 as stated is false: for a 3D mesh, `set_bbox` with 3 values
(the per-axis extents, origin implied at zero) succeeds, although
`3 ≠ 2` and `3 ≠ 2 * 3`; the accepted counts are `dim` and `2·dim`,
not `2` and `2·dim`. -/
theorem c1_counterexample :
    (set_bbox 3 [1, 2, 3] 3).isOk = true ∧ ¬((3 : ℕ) = 2 ∨ (3 : ℕ) = 2 * 3) := by
  constructor
  · rfl
  · decide

/-- Claim C1 (amended): for every mesh dimensionality `d ∈ {2,3}` and every
argument count `n`, `set_bbox` succeeds (and marks the box valid) exactly when
`n = d` or `n = 2*d`; any other count throws an invalid-argument condition,
and the `n = d` form places the box origin at zero. -/
theorem c1_set_bbox_accepts_dim_or_twice_dim (d n : Nat) (vals : List ℚ)
    (hd : d = 2 ∨ d = 3) :
    ((set_bbox d vals n).isOk = true ↔ (n = d ∨ n = 2 * d)) ∧
    (∀ st, set_bbox d vals n = Except.ok st →
      st.valid = true ∧ (n = d → st.box0 = (0, 0, 0))) := by
  constructor
  · unfold set_bbox
    split_ifs with h1 h2 h3 h4 <;>
      simp [Except.isOk, Except.toBool] <;> omega
  · intro st hst
    unfold set_bbox at hst
    split_ifs at hst with h1 h2 h3 h4
    · cases hst; exact ⟨rfl, fun _ => rfl⟩
    · cases hst; exact ⟨rfl, fun _ => rfl⟩
    · cases hst; exact ⟨rfl, fun h => ((by omega : False)).elim⟩
    · cases hst; exact ⟨rfl, fun h => ((by omega : False)).elim⟩

/-- Witness for C1 at a concrete input: dimensionality 2, two values. -/
theorem c1_witness :
    ((2 : ℕ) = 2 ∨ (2 : ℕ) = 3) ∧
    ((((set_bbox 2 [5, 7] 2).isOk = true ↔ ((2 : ℕ) = 2 ∨ (2 : ℕ) = 2 * 2)) ∧
     (∀ st, set_bbox 2 [5, 7] 2 = Except.ok st →
       st.valid = true ∧ ((2 : ℕ) = 2 → st.box0 = (0, 0, 0))))) :=
  ⟨Or.inl rfl, c1_set_bbox_accepts_dim_or_twice_dim 2 2 [5, 7] (Or.inl rfl)⟩

/-- Claim C9: `set_dimensionality` stores the argument into `mDim` before
validating it, so the stored dimensionality equals the argument even when the
call throws, and it throws exactly for arguments other than 2 and 3. -/
theorem c9_set_dimensionality_assigns_before_validating (d : Nat) :
    (set_dimensionality d).1 = d ∧
    ((set_dimensionality d).2.isOk = false ↔ d ≠ 2 ∧ d ≠ 3) := by
  constructor
  · show (if d ≠ 2 ∧ d ≠ 3 then (d, (Except.error "Invalid dimensionality of vertices" : Except String Bool)) else (d, Except.ok true)).1 = d
    split <;> rfl
  · by_cases h2 : d = 2
    · simp [set_dimensionality, h2, Except.isOk, Except.toBool]
    · by_cases h3 : d = 3
      · simp [set_dimensionality, h3, Except.isOk, Except.toBool]
      · simp [set_dimensionality, h2, h3, Except.isOk, Except.toBool]

/-- The periodic-mesh state used by `TriMeshPeriodic::wrap_vertices`
(TriMesh.cpp:432-456). -/
structure PMeshW where
  mDim : Nat
  box0 : Vec3
  box1 : Vec3
  bbox_valid : Bool
  vertices : List Vec3

/-- The per-coordinate body of the wrap loop: `if (x < box0[d]) x += boxw[d];
if (x >= box1[d]) x -= boxw[d];` with `boxw = box1 - box0`. -/
def wrapCoord (b0 b1 x : ℚ) : ℚ :=
  let w := b1 - b0
  let x1 := if x < b0 then x + w else x
  if b1 ≤ x1 then x1 - w else x1

/-- One vertex of the wrap pass: the inner loop over axes `d < dim`. -/
def wrapVertex (box0 box1 : Vec3) (dim : Nat) (v : Vec3) : Vec3 :=
  (List.range dim).foldl
    (fun u d => qset u d (wrapCoord (qget box0 d) (qget box1 d) (qget u d))) v

/-- `TriMeshPeriodic::wrap_vertices` (TriMesh.cpp:432-456): throws a logic
condition when `dim < 1`, `dim > mDim`, or the box is not valid; otherwise
wraps every vertex coordinate on every axis below `dim`. -/
def wrap_vertices (m : PMeshW) (dim : Nat) : Except String (List Vec3) :=
  if dim < 1 ∨ m.mDim < dim then
    Except.error "Invalid dim specified"
  else if m.bbox_valid = false then
    Except.error "Bounding box not available"
  else
    Except.ok (m.vertices.map (wrapVertex m.box0 m.box1 dim))

lemma wrapCoord_eq_elif (b0 b1 x : ℚ) :
    wrapCoord b0 b1 x =
      if x < b0 then x + (b1 - b0) else if b1 ≤ x then x - (b1 - b0) else x := by
  unfold wrapCoord
  dsimp only
  split_ifs <;> linarith

lemma wrapCoord_mem (b0 b1 x : ℚ) (h1 : b0 - (b1 - b0) ≤ x) (h2 : x < b1 + (b1 - b0)) :
    b0 ≤ wrapCoord b0 b1 x ∧ wrapCoord b0 b1 x < b1 := by
  unfold wrapCoord
  dsimp only
  split_ifs <;> constructor <;> linarith

lemma wrapVertex_qget (dim : Nat) (hdim : dim ≤ 3) (box0 box1 v : Vec3)
    (d : Nat) (hd : d < dim) :
    qget (wrapVertex box0 box1 dim v) d =
      wrapCoord (qget box0 d) (qget box1 d) (qget v d) := by
  interval_cases dim <;> interval_cases d <;>
    simp [wrapVertex, List.range_succ, qget, qset]

/-- Claim C8: `wrap_vertices(dim)` throws exactly when `dim = 0`, `dim`
exceeds the mesh dimensionality, or the box is not valid; on success each
coordinate on an axis below `dim` gets the single-step wrap (extent added
below the minimum, subtracted at or above the maximum), so every coordinate
that started within one box-width of the box ends in `[min, max)`. -/
theorem c8_wrap_vertices_single_step (m : PMeshW) (dim : Nat) (hdim3 : m.mDim ≤ 3) :
    ((wrap_vertices m dim).isOk = true ↔
      (1 ≤ dim ∧ dim ≤ m.mDim ∧ m.bbox_valid = true)) ∧
    (∀ vs, wrap_vertices m dim = Except.ok vs →
      vs.length = m.vertices.length ∧
      ∀ i d, i < m.vertices.length → d < dim →
        (qget (vgetD vs i) d =
          (if qget (vgetD m.vertices i) d < qget m.box0 d then
             qget (vgetD m.vertices i) d + (qget m.box1 d - qget m.box0 d)
           else if qget m.box1 d ≤ qget (vgetD m.vertices i) d then
             qget (vgetD m.vertices i) d - (qget m.box1 d - qget m.box0 d)
           else qget (vgetD m.vertices i) d)) ∧
        (qget m.box0 d - (qget m.box1 d - qget m.box0 d) ≤ qget (vgetD m.vertices i) d →
         qget (vgetD m.vertices i) d < qget m.box1 d + (qget m.box1 d - qget m.box0 d) →
         qget m.box0 d ≤ qget (vgetD vs i) d ∧ qget (vgetD vs i) d < qget m.box1 d)) := by
  constructor
  · unfold wrap_vertices
    split_ifs with h1 h2
    · simp only [Except.isOk, Except.toBool, Bool.false_eq_true, false_iff]
      rintro ⟨ha, hb, -⟩
      omega
    · simp only [Except.isOk, Except.toBool, Bool.false_eq_true, false_iff]
      rintro ⟨-, -, hc⟩
      simp [hc] at h2
    · simp only [Except.isOk, Except.toBool, true_iff]
      have hb : m.bbox_valid = true := by
        cases hbv : m.bbox_valid
        · exact absurd hbv h2
        · rfl
      exact ⟨by omega, by omega, hb⟩
  · intro vs hvs
    unfold wrap_vertices at hvs
    split_ifs at hvs with h1 h2
    cases hvs
    refine ⟨by simp, ?_⟩
    intro i d hi hd
    have hdim : dim ≤ 3 := by omega
    have hlen : i < (m.vertices.map (wrapVertex m.box0 m.box1 dim)).length := by
      simpa using hi
    have hmap : vgetD (m.vertices.map (wrapVertex m.box0 m.box1 dim)) i
        = wrapVertex m.box0 m.box1 dim (vgetD m.vertices i) := by
      unfold vgetD
      rw [List.getD_eq_getElem _ _ hlen, List.getElem_map,
        ← List.getD_eq_getElem _ _ hi]
    rw [hmap, wrapVertex_qget dim hdim _ _ _ d hd]
    constructor
    · exact wrapCoord_eq_elif _ _ _
    · intro hlo hhi
      exact wrapCoord_mem _ _ _ hlo hhi

/-- A concrete 2D periodic mesh with a valid unit box and one vertex lying
outside the box, used as the C8 witness input. -/
def wrapEx : PMeshW :=
  ⟨2, (0, 0, 0), (1, 1, 0), true, [(3/2, -1/2, 0)]⟩

/-- Witness for C8: the hypotheses hold at `wrapEx` with `dim = 2`. -/
theorem c8_witness :
    wrapEx.mDim ≤ 3 ∧
    (((wrap_vertices wrapEx 2).isOk = true ↔
      (1 ≤ 2 ∧ 2 ≤ wrapEx.mDim ∧ wrapEx.bbox_valid = true)) ∧
    (∀ vs, wrap_vertices wrapEx 2 = Except.ok vs →
      vs.length = wrapEx.vertices.length ∧
      ∀ i d, i < wrapEx.vertices.length → d < 2 →
        (qget (vgetD vs i) d =
          (if qget (vgetD wrapEx.vertices i) d < qget wrapEx.box0 d then
             qget (vgetD wrapEx.vertices i) d +
               (qget wrapEx.box1 d - qget wrapEx.box0 d)
           else if qget wrapEx.box1 d ≤ qget (vgetD wrapEx.vertices i) d then
             qget (vgetD wrapEx.vertices i) d -
               (qget wrapEx.box1 d - qget wrapEx.box0 d)
           else qget (vgetD wrapEx.vertices i) d)) ∧
        (qget wrapEx.box0 d - (qget wrapEx.box1 d - qget wrapEx.box0 d) ≤
            qget (vgetD wrapEx.vertices i) d →
         qget (vgetD wrapEx.vertices i) d <
            qget wrapEx.box1 d + (qget wrapEx.box1 d - qget wrapEx.box0 d) →
         qget wrapEx.box0 d ≤ qget (vgetD vs i) d ∧
           qget (vgetD vs i) d < qget wrapEx.box1 d))) :=
  ⟨by decide, c8_wrap_vertices_single_step wrapEx 2 (by decide)⟩

/-- Generic loop invariant for `List.foldl`, used for the stateful passes. -/
lemma foldl_inv {α β : Type} (P : β → Prop) (l : List α) (step : β → α → β)
    (init : β) (h0 : P init) (hstep : ∀ s x, x ∈ l → P s → P (step s x)) :
    P (l.foldl step init) := by
  induction l generalizing init with
  | nil => exact h0
  | cons x l ih =>
      exact ih (step init x) (hstep init x (List.mem_cons_self x l) h0)
        (fun s y hy hp => hstep s y (List.mem_cons_of_mem x hy) hp)

/-- Add `w` into accumulator slot `i` (one `+=` on a per-vertex vector). -/
def bumpAt (g : Nat → Vec3) (i : Nat) (w : Vec3) : Nat → Vec3 :=
  fun v => if v = i then addV (g v) w else g v

/-- One face of the accumulation loop of `TriMesh::need_normals`
(TriMesh.cpp:88-106): edges `a = p0-p1`, `b = p1-p2`, `c = p2-p0`; a face
with a zero-length edge is skipped; otherwise the cross product `a × b` is
added into the three corner accumulators with weights `1/(l2a·l2c)`,
`1/(l2b·l2a)`, `1/(l2c·l2b)`. -/
def normalsStep (verts : List Vec3) (g : Nat → Vec3) (f : Face) : Nat → Vec3 :=
  let p0 := vgetD verts (fidx f 0)
  let p1 := vgetD verts (fidx f 1)
  let p2 := vgetD verts (fidx f 2)
  let a := subV p0 p1
  let b := subV p1 p2
  let c := subV p2 p0
  let l2a := len2V a
  let l2b := len2V b
  let l2c := len2V c
  if l2a = 0 ∨ l2b = 0 ∨ l2c = 0 then g
  else
    let fn := crossV a b
    let g0 := bumpAt g (fidx f 0) (smulV (1 / (l2a * l2c)) fn)
    let g1 := bumpAt g0 (fidx f 1) (smulV (1 / (l2b * l2a)) fn)
    bumpAt g1 (fidx f 2) (smulV (1 / (l2c * l2b)) fn)

/-- The per-vertex normal accumulators after the face loop of
`TriMesh::need_normals`, before normalization. -/
def need_normals_acc (verts : List Vec3) (faces : List Face) : Nat → Vec3 :=
  faces.foldl (normalsStep verts) (fun _ => (0, 0, 0))

/-- A face is valid (non-degenerate) when none of its three edges has zero
squared length — the negation of the skip condition in `need_normals`. -/
def faceValid (verts : List Vec3) (f : Face) : Bool :=
  decide (¬(len2V (subV (vgetD verts (fidx f 0)) (vgetD verts (fidx f 1))) = 0 ∨
            len2V (subV (vgetD verts (fidx f 1)) (vgetD verts (fidx f 2))) = 0 ∨
            len2V (subV (vgetD verts (fidx f 2)) (vgetD verts (fidx f 0))) = 0))

/-- Number of valid (non-degenerate) faces incident to vertex `v`. -/
def incidentValidCount (verts : List Vec3) (faces : List Face) (v : Nat) : Nat :=
  faces.countP (fun f => faceValid verts f && (f.1 == v || f.2.1 == v || f.2.2 == v))

/-- Modelled from the spec: the `normalize` helper lives in the `TriMesh.hpp`
header, which is not part of the sources; per the spec it scales a nonzero
accumulator to unit length and leaves a zero accumulator as the zero vector.
The irrational square root `‖v‖` is represented by the parameter `s`,
constrained at every use site by `s ≥ 0` and `s * s = len2V v`. -/
def normalizeWith (s : ℚ) (v : Vec3) : Vec3 :=
  if s = 0 then (0, 0, 0) else smulV (1 / s) v

lemma len2V_eq_zero_iff (v : Vec3) : len2V v = 0 ↔ v = (0, 0, 0) := by
  rcases v with ⟨x, y, z⟩
  unfold len2V dotV
  constructor
  · intro h
    have ha := mul_self_nonneg x
    have hb := mul_self_nonneg y
    have hc := mul_self_nonneg z
    have h1 : x * x = 0 := by linarith
    have h2 : y * y = 0 := by linarith
    have h3 : z * z = 0 := by linarith
    simp only [Prod.mk.injEq]
    exact ⟨mul_self_eq_zero.mp h1, mul_self_eq_zero.mp h2, mul_self_eq_zero.mp h3⟩
  · intro h
    cases h
    ring

lemma len2V_smulV (c : ℚ) (v : Vec3) : len2V (smulV c v) = c * c * len2V v := by
  rcases v with ⟨x, y, z⟩
  unfold len2V smulV dotV
  ring

lemma normalsStep_invalid (verts : List Vec3) (g : Nat → Vec3) (f : Face)
    (h : faceValid verts f = false) : normalsStep verts g f = g := by
  unfold normalsStep
  unfold faceValid at h
  rw [decide_eq_false_iff_not, not_not] at h
  rw [if_pos h]

lemma normalsStep_not_incident (verts : List Vec3) (g : Nat → Vec3) (f : Face)
    (v : Nat) (h0 : f.1 ≠ v) (h1 : f.2.1 ≠ v) (h2 : f.2.2 ≠ v) :
    normalsStep verts g f v = g v := by
  have e0 : fidx f 0 = f.1 := rfl
  have e1 : fidx f 1 = f.2.1 := rfl
  have e2 : fidx f 2 = f.2.2 := rfl
  unfold normalsStep
  dsimp only
  split
  · rfl
  · unfold bumpAt
    rw [e0, e1, e2]
    rw [if_neg (fun hv => h2 hv.symm), if_neg (fun hv => h1 hv.symm),
      if_neg (fun hv => h0 hv.symm)]

lemma need_normals_acc_zero_of_no_valid_incident (verts : List Vec3)
    (faces : List Face) (v : Nat) (h : incidentValidCount verts faces v = 0) :
    need_normals_acc verts faces v = (0, 0, 0) := by
  unfold incidentValidCount at h
  rw [List.countP_eq_zero] at h
  unfold need_normals_acc
  refine foldl_inv (fun g => g v = (0, 0, 0)) faces (normalsStep verts)
    (fun _ => (0, 0, 0)) rfl ?_
  intro g f hf hg
  by_cases hval : faceValid verts f = false
  · rw [normalsStep_invalid verts g f hval, hg]
  · have hval' : faceValid verts f = true := by
      cases hb : faceValid verts f
      · exact absurd hb hval
      · rfl
    have hni := h f hf
    rw [hval'] at hni
    simp only [Bool.true_and, Bool.or_eq_true, beq_iff_eq, not_or] at hni
    push_neg at hni
    rw [normalsStep_not_incident verts g f v hni.1.1 hni.1.2 hni.2, hg]

lemma need_normals_acc_skip_degenerate (verts : List Vec3)
    (l1 : List Face) (f : Face) (l2 : List Face)
    (h : faceValid verts f = false) :
    need_normals_acc verts (l1 ++ f :: l2) = need_normals_acc verts (l1 ++ l2) := by
  unfold need_normals_acc
  rw [List.foldl_append, List.foldl_append, List.foldl_cons,
    normalsStep_invalid verts _ f h]

/-- Claim C6 (amended): after `need_normals`, a per-vertex normal is unit
length or the zero vector; it is exactly zero precisely when the accumulated
weighted normal sum is zero.  A vertex incident to zero valid faces gets the
zero vector, but the converse of the claim fails: opposite-orientation valid
faces can cancel exactly (see the counterexample).  Degenerate faces are
silently skipped and contribute nothing. -/
theorem c6_normals_unit_or_zero_amended (verts : List Vec3) (faces : List Face)
    (v : Nat) (s : ℚ) (hs : 0 ≤ s)
    (hss : s * s = len2V (need_normals_acc verts faces v)) :
    (len2V (normalizeWith s (need_normals_acc verts faces v)) = 1 ∨
      normalizeWith s (need_normals_acc verts faces v) = (0, 0, 0)) ∧
    (normalizeWith s (need_normals_acc verts faces v) = (0, 0, 0) ↔
      need_normals_acc verts faces v = (0, 0, 0)) ∧
    (incidentValidCount verts faces v = 0 →
      normalizeWith s (need_normals_acc verts faces v) = (0, 0, 0)) ∧
    (∀ l1 f l2, faces = l1 ++ f :: l2 → faceValid verts f = false →
      need_normals_acc verts faces = need_normals_acc verts (l1 ++ l2)) := by
  have hz0 : len2V ((0, 0, 0) : Vec3) = 0 := by norm_num [len2V, dotV]
  have hiff : normalizeWith s (need_normals_acc verts faces v) = (0, 0, 0) ↔
      need_normals_acc verts faces v = (0, 0, 0) := by
    constructor
    · intro h
      by_cases h0 : s = 0
      · rw [h0] at hss
        rw [← len2V_eq_zero_iff]
        linarith
      · unfold normalizeWith at h
        rw [if_neg h0] at h
        have hc := congrArg len2V h
        rw [len2V_smulV, hz0] at hc
        have hinv : (1 / s) * (1 / s) ≠ 0 := by
          simp [h0]
        have hl : len2V (need_normals_acc verts faces v) = 0 := by
          rcases mul_eq_zero.mp hc with h' | h'
          · exact absurd h' hinv
          · exact h'
        exact (len2V_eq_zero_iff _).mp hl
    · intro h
      have hs0 : s = 0 := by
        rw [h, hz0] at hss
        exact mul_self_eq_zero.mp hss
      rw [hs0]
      unfold normalizeWith
      rw [if_pos rfl]
  refine ⟨?_, hiff, ?_, ?_⟩
  · by_cases h0 : need_normals_acc verts faces v = (0, 0, 0)
    · right
      exact hiff.mpr h0
    · left
      have hl2 : len2V (need_normals_acc verts faces v) ≠ 0 :=
        fun hc => h0 ((len2V_eq_zero_iff _).mp hc)
      have hsne : s ≠ 0 := by
        intro hc
        rw [hc] at hss
        exact hl2 (by linarith)
      unfold normalizeWith
      rw [if_neg hsne, len2V_smulV, ← hss]
      field_simp
  · intro hcount
    exact hiff.mpr (need_normals_acc_zero_of_no_valid_incident verts faces v hcount)
  · intro l1 f l2 hfe hval
    rw [hfe]
    exact need_normals_acc_skip_degenerate verts l1 f l2 hval

/-- A right triangle listed twice with opposite orientations: both faces are
valid, every vertex is incident to two valid faces, yet the weighted normal
contributions cancel exactly. -/
def cExVerts : List Vec3 := [(0, 0, 0), (1, 0, 0), (0, 1, 0)]

def cExFaces : List Face := [(0, 1, 2), (0, 2, 1)]

/-- Claim C6 as stated is false: in the mesh `cExVerts`/`cExFaces`, vertex 0
is incident to two valid (non-degenerate) faces, yet its accumulated normal
is exactly zero (so its final normal is the zero vector: the admissible
square-root parameter is forced to 0), contradicting that a normal is zero
only for vertices with zero valid incident faces. -/
theorem c6_counterexample :
    need_normals_acc cExVerts cExFaces 0 = (0, 0, 0) ∧
    normalizeWith 0 (need_normals_acc cExVerts cExFaces 0) = (0, 0, 0) ∧
    incidentValidCount cExVerts cExFaces 0 = 2 := by
  refine ⟨?_, ?_, ?_⟩
  · norm_num [need_normals_acc, cExVerts, cExFaces, normalsStep, bumpAt, vgetD,
      fidx, subV, addV, smulV, crossV, len2V, dotV]
  · norm_num [normalizeWith]
  · norm_num [incidentValidCount, cExVerts, cExFaces, faceValid, vgetD, fidx,
      subV, len2V, dotV, List.countP, List.countP.go]

/-- A single valid face for the C6 witness. -/
def c6WitFaces : List Face := [(0, 1, 2)]

/-- Witness for C6: at the single-triangle mesh, vertex 0, the accumulated
normal is `(0,0,1)`, whose length is the rational 1, so the hypotheses of the
amended theorem hold with `s = 1`. -/
theorem c6_witness :
    ((0 : ℚ) ≤ 1 ∧ (1 : ℚ) * 1 = len2V (need_normals_acc cExVerts c6WitFaces 0)) ∧
    ((len2V (normalizeWith 1 (need_normals_acc cExVerts c6WitFaces 0)) = 1 ∨
      normalizeWith 1 (need_normals_acc cExVerts c6WitFaces 0) = (0, 0, 0)) ∧
    (normalizeWith 1 (need_normals_acc cExVerts c6WitFaces 0) = (0, 0, 0) ↔
      need_normals_acc cExVerts c6WitFaces 0 = (0, 0, 0)) ∧
    (incidentValidCount cExVerts c6WitFaces 0 = 0 →
      normalizeWith 1 (need_normals_acc cExVerts c6WitFaces 0) = (0, 0, 0)) ∧
    (∀ l1 f l2, c6WitFaces = l1 ++ f :: l2 → faceValid cExVerts f = false →
      need_normals_acc cExVerts c6WitFaces = need_normals_acc cExVerts (l1 ++ l2))) :=
  ⟨⟨by norm_num,
    by norm_num [need_normals_acc, cExVerts, c6WitFaces, normalsStep, bumpAt,
      vgetD, fidx, subV, addV, smulV, crossV, len2V, dotV]⟩,
   c6_normals_unit_or_zero_amended cExVerts c6WitFaces 0 1 (by norm_num)
    (by norm_num [need_normals_acc, cExVerts, c6WitFaces, normalsStep, bumpAt,
      vgetD, fidx, subV, addV, smulV, crossV, len2V, dotV])⟩

/-- The branch structure of one face iteration of `TriMesh::need_pointareas`
(TriMesh.cpp:141-173), abstracted over the scalar inputs the code computes:
`area` (the face area `0.5·len(e0 × e1)`), the squared edge lengths
`l20, l21, l22`, and the six dot products `dab = e[a] DOT e[b]` the obtuse
branches divide by.  Returns the three corner areas `(c0, c1, c2)`. -/
def cornerSplit (area l20 l21 l22 d02 d01 d10 d12 d21 d20 : ℚ) : ℚ × ℚ × ℚ :=
  let ew0 := l20 * (l21 + l22 - l20)
  let ew1 := l21 * (l22 + l20 - l21)
  let ew2 := l22 * (l20 + l21 - l22)
  if ew0 ≤ 0 then
    let c1 := -(1/4) * l22 * area / d02
    let c2 := -(1/4) * l21 * area / d01
    (area - c1 - c2, c1, c2)
  else if ew1 ≤ 0 then
    let c2 := -(1/4) * l20 * area / d10
    let c0 := -(1/4) * l22 * area / d12
    (c0, area - c2 - c0, c2)
  else if ew2 ≤ 0 then
    let c0 := -(1/4) * l21 * area / d21
    let c1 := -(1/4) * l20 * area / d20
    (c0, c1, area - c0 - c1)
  else
    let s := (1/2) * area / (ew0 + ew1 + ew2)
    (s * (ew1 + ew2), s * (ew2 + ew0), s * (ew0 + ew1))

/-- One face of `need_pointareas`: edges `e0 = v2-v1`, `e1 = v0-v2`,
`e2 = v1-v0`, then the corner-area branch on the edge weights. -/
def cornerAreas (verts : List Vec3) (f : Face) (area : ℚ) : ℚ × ℚ × ℚ :=
  let e0 := subV (vgetD verts (fidx f 2)) (vgetD verts (fidx f 1))
  let e1 := subV (vgetD verts (fidx f 0)) (vgetD verts (fidx f 2))
  let e2 := subV (vgetD verts (fidx f 1)) (vgetD verts (fidx f 0))
  cornerSplit area (len2V e0) (len2V e1) (len2V e2)
    (dotV e0 e2) (dotV e0 e1) (dotV e1 e0) (dotV e1 e2) (dotV e2 e1) (dotV e2 e0)

/-- One face of the accumulation loop: the three corner areas are added into
the per-vertex totals at the face's three corner indices. -/
def paStep (verts : List Vec3) (areas : Nat → ℚ) (g : Nat → ℚ) (p : Nat × Face) :
    Nat → ℚ :=
  let c := cornerAreas verts p.2 (areas p.1)
  fun v =>
    g v + (if p.2.1 = v then c.1 else 0) + (if p.2.2.1 = v then c.2.1 else 0) +
      (if p.2.2.2 = v then c.2.2 else 0)

/-- The per-vertex point areas of `TriMesh::need_pointareas`
(TriMesh.cpp:124-189), with the per-face area parameter `areas i` standing
for the square root the code computes for face `i`. -/
def need_pointareas (verts : List Vec3) (faces : List Face) (areas : Nat → ℚ) :
    Nat → ℚ :=
  faces.enum.foldl (paStep verts areas) (fun _ => 0)

lemma cornerSplit_sum (area l20 l21 l22 d02 d01 d10 d12 d21 d20 : ℚ) :
    (cornerSplit area l20 l21 l22 d02 d01 d10 d12 d21 d20).1 +
    (cornerSplit area l20 l21 l22 d02 d01 d10 d12 d21 d20).2.1 +
    (cornerSplit area l20 l21 l22 d02 d01 d10 d12 d21 d20).2.2 = area := by
  unfold cornerSplit
  dsimp only
  split_ifs with h0 h1 h2
  · ring
  · ring
  · ring
  · push_neg at h0 h1 h2
    have hS : (0:ℚ) < l20 * (l21 + l22 - l20) + l21 * (l22 + l20 - l21) +
        l22 * (l20 + l21 - l22) := by linarith
    have hS' : l20 * (l21 + l22 - l20) + l21 * (l22 + l20 - l21) +
        l22 * (l20 + l21 - l22) ≠ 0 := ne_of_gt hS
    field_simp
    ring

lemma cornerAreas_sum (verts : List Vec3) (f : Face) (area : ℚ) :
    (cornerAreas verts f area).1 + (cornerAreas verts f area).2.1 +
      (cornerAreas verts f area).2.2 = area := by
  unfold cornerAreas
  exact cornerSplit_sum _ _ _ _ _ _ _ _ _ _

lemma sum_indicator (n c : Nat) (x : ℚ) :
    ((List.range n).map (fun v => if c = v then x else 0)).sum =
      if c < n then x else 0 := by
  induction n with
  | zero => simp
  | succ n ih =>
      rw [List.range_succ, List.map_append, List.sum_append, ih]
      by_cases hc : c = n
      · subst hc
        rw [if_neg (Nat.lt_irrefl c), if_pos (Nat.lt_succ_self c)]
        simp
      · simp only [List.map_cons, List.map_nil, List.sum_cons, List.sum_nil,
          if_neg hc]
        by_cases hlt : c < n
        · rw [if_pos hlt, if_pos (Nat.lt_succ_of_lt hlt)]
          ring
        · rw [if_neg hlt, if_neg (by omega : ¬c < n + 1)]
          ring

lemma pa_total_aux (verts : List Vec3) (areas : Nat → ℚ)
    (ps : List (Nat × Face)) (g : Nat → ℚ)
    (hval : ∀ p ∈ ps, p.2.1 < verts.length ∧ p.2.2.1 < verts.length ∧
      p.2.2.2 < verts.length) :
    ((List.range verts.length).map (ps.foldl (paStep verts areas) g)).sum =
      ((List.range verts.length).map g).sum + (ps.map (fun p => areas p.1)).sum := by
  induction ps generalizing g with
  | nil => simp
  | cons p ps ih =>
      rw [List.foldl_cons, ih (paStep verts areas g p)
        (fun q hq => hval q (List.mem_cons_of_mem p hq))]
      have hp := hval p (List.mem_cons_self p ps)
      have hstep : ((List.range verts.length).map (paStep verts areas g p)).sum =
          ((List.range verts.length).map g).sum + areas p.1 := by
        unfold paStep
        dsimp only
        rw [List.sum_map_add, List.sum_map_add, List.sum_map_add]
        rw [sum_indicator, sum_indicator, sum_indicator,
          if_pos hp.1, if_pos hp.2.1, if_pos hp.2.2]
        have hc := cornerAreas_sum verts p.2 (areas p.1)
        linarith
      rw [hstep, List.map_cons, List.sum_cons]
      ring

/-- Claim C4: in `need_pointareas`, the three corner areas of every face
(acute branch and each obtuse fallback) sum exactly to the face's area, and
consequently (for faces referencing valid vertex indices) the total of all
per-vertex point areas equals the sum of all per-face areas. -/
theorem c4_pointareas_partition (verts : List Vec3) (faces : List Face)
    (areas : Nat → ℚ)
    (hval : ∀ f ∈ faces, f.1 < verts.length ∧ f.2.1 < verts.length ∧
      f.2.2 < verts.length) :
    (∀ f area, (cornerAreas verts f area).1 + (cornerAreas verts f area).2.1 +
      (cornerAreas verts f area).2.2 = area) ∧
    ((List.range verts.length).map (need_pointareas verts faces areas)).sum =
      ((List.range faces.length).map areas).sum := by
  constructor
  · exact fun f area => cornerAreas_sum verts f area
  · unfold need_pointareas
    rw [pa_total_aux verts areas faces.enum (fun _ => 0) ?hv]
    case hv =>
      intro p hp
      have hmem : p.2 ∈ faces := by
        rcases p with ⟨i, x⟩
        rw [List.mem_enum_iff_getElem?] at hp
        exact List.getElem?_mem hp
      exact hval p.2 hmem
    have hfst : faces.enum.map (fun p => areas p.1) =
        (faces.enum.map Prod.fst).map areas := by
      rw [List.map_map]
      rfl
    rw [hfst, List.enum_map_fst]
    simp

/-- A single right triangle used as the C4 witness mesh. -/
def c4WitVerts : List Vec3 := [(0, 0, 0), (1, 0, 0), (0, 1, 0)]

def c4WitFaces : List Face := [(0, 1, 2)]

/-- Witness for C4: the validity hypothesis holds at the single-triangle
mesh, with the face-0 area parameter set to 1. -/
theorem c4_witness :
    (∀ f ∈ c4WitFaces, f.1 < c4WitVerts.length ∧ f.2.1 < c4WitVerts.length ∧
      f.2.2 < c4WitVerts.length) ∧
    ((∀ f area, (cornerAreas c4WitVerts f area).1 +
        (cornerAreas c4WitVerts f area).2.1 +
        (cornerAreas c4WitVerts f area).2.2 = area) ∧
      ((List.range c4WitVerts.length).map
        (need_pointareas c4WitVerts c4WitFaces (fun _ => 1))).sum =
      ((List.range c4WitFaces.length).map (fun _ => 1)).sum) :=
  ⟨by decide, c4_pointareas_partition c4WitVerts c4WitFaces (fun _ => 1) (by decide)⟩

/-- A token of the stream `TriMesh::write_binary` (TriMesh.cpp:538-644)
emits after the fixed header: a vertex record (`'v'`, index, 3 position
scalars, one scalar per registered field), a directed edge (`'e'`, two
indices), or a face-closure marker (`'f'`, index). -/
inductive Tok where
  | v (idx : Nat) (pos : Vec3) (fields : List ℚ)
  | e (a b : Nat)
  | f (idx : Nat)
deriving DecidableEq

/-- The mesh state `write_binary` serializes: vertices, faces, and the named
scalar fields in their `std::map` iteration (name) order. -/
structure BMesh where
  verts : List Vec3
  faces : List Face
  fields : List (String × List ℚ)

/-- The three corners of a face, in order. -/
def cornersOf (f : Face) : List Nat := [f.1, f.2.1, f.2.2]

/-- All corner slots of the face list, in face-then-corner order. -/
def allSlots (faces : List Face) : List Nat := faces.flatMap cornersOf

/-- The number of corner slots referencing vertex `v` (the full pre-pass
total; the `uint8_t` counter stores it modulo 256). -/
def slotCount (faces : List Face) (v : Nat) : Nat :=
  (allSlots faces).countP (fun w => w == v)

/-- The pre-pass `first` array: the least face index referencing `v`, with
`(uint32)-1 = 2^32 - 1` when no face does. -/
def firstFace (faces : List Face) (v : Nat) : Nat :=
  faces.enum.foldl
    (fun m p => if p.2.1 = v ∨ p.2.2.1 = v ∨ p.2.2.2 = v then min m p.1 else m)
    (2 ^ 32 - 1)

/-- The vertex record for `vert`: index, position, one scalar per field. -/
def vTok (m : BMesh) (vert : Nat) : Tok :=
  Tok.v vert (vgetD m.verts vert) (m.fields.map (fun pr => pr.2.getD vert 0))

/-- The face-closure pass over a list of corner slots: each slot decrements
the vertex's 8-bit counter (wrapping modulo 256) and emits an `'f'` token
when the counter reaches zero.  Returns the updated counters and tokens. -/
def fTokens : (Nat → Nat) → List Nat → (Nat → Nat) × List Tok
  | counts, [] => (counts, [])
  | counts, v :: vs =>
      let c := (counts v + 255) % 256
      let counts2 := fun x => if x = v then c else counts x
      let r := fTokens counts2 vs
      (r.1, (if c = 0 then [Tok.f v] else []) ++ r.2)

/-- One face of the write loop: `'v'` records for corners whose first
occurrence is this face, then the three directed edges, then the
face-closure decrements. -/
def faceBlock (m : BMesh) (first : Nat → Nat) (counts : Nat → Nat) (i : Nat)
    (f : Face) : List Tok × (Nat → Nat) :=
  let vtoks := (cornersOf f).filterMap
    (fun vert => if i = first vert then some (vTok m vert) else none)
  let etoks := [Tok.e f.1 f.2.1, Tok.e f.2.1 f.2.2, Tok.e f.2.2 f.1]
  let r := fTokens counts (cornersOf f)
  (vtoks ++ etoks ++ r.2, r.1)

/-- The main write loop over the remaining faces, threading the 8-bit
counters; `i` is the current face index. -/
def writeFaces (m : BMesh) (first : Nat → Nat) :
    (Nat → Nat) → Nat → List Face → List Tok
  | _, _, [] => []
  | counts, i, f :: rest =>
      let b := faceBlock m first counts i f
      b.1 ++ writeFaces m first b.2 (i + 1) rest

/-- The token stream of `TriMesh::write_binary` after the header. -/
def write_binary (m : BMesh) : List Tok :=
  writeFaces m (firstFace m.faces) (fun v => slotCount m.faces v % 256) 0 m.faces

/-- The token stream prefix produced by the first `n` faces of the write
loop (same pre-pass state as the full run). -/
def writeUpTo (m : BMesh) (n : Nat) : List Tok :=
  writeFaces m (firstFace m.faces) (fun v => slotCount m.faces v % 256) 0
    (m.faces.take n)

/-- Claim C5: for a single-triangle mesh (vertices 0,1,2, one registered
field), the stream after the header is exactly three `'v'` records (index,
position, field scalar), then the three directed edges 0→1, 1→2, 2→0, then
three `'f'` markers for vertices 0, 1, 2 — in that order. -/
theorem c5_write_binary_single_triangle (p0 p1 p2 : Vec3) (g0 g1 g2 : ℚ) :
    write_binary ⟨[p0, p1, p2], [(0, 1, 2)], [("f", [g0, g1, g2])]⟩ =
      [Tok.v 0 p0 [g0], Tok.v 1 p1 [g1], Tok.v 2 p2 [g2],
       Tok.e 0 1, Tok.e 1 2, Tok.e 2 0,
       Tok.f 0, Tok.f 1, Tok.f 2] := by
  norm_num [write_binary, writeFaces, faceBlock, fTokens, slotCount, firstFace,
    allSlots, cornersOf, vTok, vgetD, List.enum, List.filterMap_cons]

/-- Number of `'f'` tokens for vertex `v` in a token stream. -/
def numF (ts : List Tok) (v : Nat) : Nat :=
  ts.countP (fun t => match t with | Tok.f w => w == v | _ => false)

/-- Reference count of zero-hits of an 8-bit down-counter that starts at `c`
and is decremented (mod 256) `d` times. -/
def fEmits : Nat → Nat → Nat
  | _, 0 => 0
  | c, d + 1 => (if (c + 255) % 256 = 0 then 1 else 0) + fEmits ((c + 255) % 256) d

lemma fTokens_numF (slots : List Nat) : ∀ (counts : Nat → Nat) (v : Nat),
    numF (fTokens counts slots).2 v =
      fEmits (counts v) (slots.countP (fun w => w == v)) := by
  induction slots with
  | nil => intro counts v; rfl
  | cons w vs ih =>
      intro counts v
      have hsplit : (fTokens counts (w :: vs)).2 =
          (if (counts w + 255) % 256 = 0 then [Tok.f w] else []) ++
          (fTokens (fun x => if x = w then (counts w + 255) % 256 else counts x)
            vs).2 := rfl
      rw [hsplit]
      unfold numF
      rw [List.countP_append]
      have hrec := ih (fun x => if x = w then (counts w + 255) % 256 else counts x) v
      unfold numF at hrec
      rw [hrec]
      by_cases hw : w = v
      · subst hw
        have hcnt : (w :: vs).countP (fun x => x == w) =
            vs.countP (fun x => x == w) + 1 := by
          rw [List.countP_cons]
          simp
        rw [hcnt]
        have hc2 : (if w = w then (counts w + 255) % 256 else counts w)
            = (counts w + 255) % 256 := if_pos rfl
        rw [hc2]
        show _ = (if (counts w + 255) % 256 = 0 then 1 else 0) +
          fEmits ((counts w + 255) % 256) (vs.countP (fun x => x == w))
        split_ifs with h0
        · simp [h0]
        · simp [h0]
      · have hcnt : (w :: vs).countP (fun x => x == v) =
            vs.countP (fun x => x == v) := by
          rw [List.countP_cons]
          simp [hw]
        have hc2 : (if v = w then (counts w + 255) % 256 else counts v)
            = counts v := if_neg (fun h => hw h.symm)
        rw [hcnt, hc2]
        split_ifs with h0
        · simp [List.countP_cons, hw]
        · simp

lemma fTokens_append (l1 l2 : List Nat) : ∀ counts : Nat → Nat,
    fTokens counts (l1 ++ l2) =
      ((fTokens (fTokens counts l1).1 l2).1,
       (fTokens counts l1).2 ++ (fTokens (fTokens counts l1).1 l2).2) := by
  induction l1 with
  | nil => intro counts; rfl
  | cons w vs ih =>
      intro counts
      show fTokens counts (w :: (vs ++ l2)) = _
      have h1 : fTokens counts (w :: (vs ++ l2)) =
          ((fTokens (fun x => if x = w then (counts w + 255) % 256 else counts x)
              (vs ++ l2)).1,
           (if (counts w + 255) % 256 = 0 then [Tok.f w] else []) ++
           (fTokens (fun x => if x = w then (counts w + 255) % 256 else counts x)
              (vs ++ l2)).2) := rfl
      rw [h1, ih]
      simp [fTokens, List.append_assoc]

lemma numF_append (t1 t2 : List Tok) (v : Nat) :
    numF (t1 ++ t2) v = numF t1 v + numF t2 v := by
  unfold numF
  exact List.countP_append _ t1 t2

lemma numF_vtoks (m : BMesh) (first : Nat → Nat) (i : Nat) (f : Face) (v : Nat) :
    numF ((cornersOf f).filterMap
      (fun vert => if i = first vert then some (vTok m vert) else none)) v = 0 := by
  unfold numF
  rw [List.countP_eq_zero]
  intro t ht
  rw [List.mem_filterMap] at ht
  obtain ⟨vert, -, hv⟩ := ht
  split at hv
  · cases hv
    simp [vTok]
  · cases hv

lemma numF_etoks (a b c d e f : Nat) (v : Nat) :
    numF [Tok.e a b, Tok.e c d, Tok.e e f] v = 0 := rfl

lemma writeFaces_numF (m : BMesh) (first : Nat → Nat) (v : Nat) :
    ∀ (faces : List Face) (counts : Nat → Nat) (i : Nat),
      numF (writeFaces m first counts i faces) v =
        numF (fTokens counts (allSlots faces)).2 v := by
  intro faces
  induction faces with
  | nil => intro counts i; rfl
  | cons f rest ih =>
      intro counts i
      have hblk : writeFaces m first counts i (f :: rest) =
          ((cornersOf f).filterMap
            (fun vert => if i = first vert then some (vTok m vert) else none) ++
           [Tok.e f.1 f.2.1, Tok.e f.2.1 f.2.2, Tok.e f.2.2 f.1] ++
           (fTokens counts (cornersOf f)).2) ++
          writeFaces m first (fTokens counts (cornersOf f)).1 (i + 1) rest := rfl
      rw [hblk]
      rw [numF_append, numF_append, numF_append, numF_vtoks, numF_etoks,
        ih (fTokens counts (cornersOf f)).1 (i + 1)]
      have hslots : allSlots (f :: rest) = cornersOf f ++ allSlots rest := rfl
      rw [hslots, fTokens_append, numF_append]
      omega

lemma fEmits_eq_countP (d : Nat) : ∀ c : Nat,
    fEmits c d =
      (List.range d).countP (fun k => decide ((c + 255 * (k + 1)) % 256 = 0)) := by
  induction d with
  | zero => intro c; rfl
  | succ d ih =>
      intro c
      show (if (c + 255) % 256 = 0 then 1 else 0) + fEmits ((c + 255) % 256) d = _
      rw [ih ((c + 255) % 256)]
      rw [List.range_succ_eq_map, List.countP_cons, List.countP_map]
      have hcongr : (List.range d).countP
          (fun k => decide (((c + 255) % 256 + 255 * (k + 1)) % 256 = 0)) =
          (List.range d).countP
            ((fun k => decide ((c + 255 * (k + 1)) % 256 = 0)) ∘ Nat.succ) := by
        apply List.countP_congr
        intro k hk
        simp only [Function.comp_apply, decide_eq_true_eq]
        constructor
        · intro h; omega
        · intro h; omega
      rw [hcongr]
      have hp0 : (decide ((c + 255 * (0 + 1)) % 256 = 0))
          = (decide ((c + 255) % 256 = 0)) := by
        apply decide_eq_decide.mpr
        omega
      rw [hp0]
      by_cases h0 : (c + 255) % 256 = 0 <;> simp [h0] <;> omega

lemma countP_range_single (n c : Nat) :
    (List.range n).countP (fun k => decide (k = c)) = if c < n then 1 else 0 := by
  induction n with
  | zero => simp
  | succ n ih =>
      rw [List.range_succ, List.countP_append, ih, List.countP_cons]
      simp only [List.countP_nil, decide_eq_true_eq]
      by_cases hc : c = n
      · subst hc
        rw [if_neg (Nat.lt_irrefl c), if_pos (Nat.lt_succ_self c), if_pos rfl]
      · by_cases hlt : c < n
        · rw [if_pos hlt, if_pos (Nat.lt_succ_of_lt hlt),
            if_neg (fun h => hc h.symm)]
        · rw [if_neg hlt, if_neg (by omega : ¬c < n + 1),
            if_neg (fun h => hc h.symm)]

/-- Vertex `v` is one of the three corners of face `f`. -/
def isCorner (f : Face) (v : Nat) : Prop := f.1 = v ∨ f.2.1 = v ∨ f.2.2 = v

instance (f : Face) (v : Nat) : Decidable (isCorner f v) := by
  unfold isCorner
  infer_instance

lemma slotCount_append (l1 l2 : List Face) (v : Nat) :
    slotCount (l1 ++ l2) v = slotCount l1 v + slotCount l2 v := by
  unfold slotCount allSlots
  rw [List.flatMap_append, List.countP_append]

lemma slotCount_zero_of_no_incident (l : List Face) (v : Nat)
    (h : ∀ f ∈ l, ¬isCorner f v) : slotCount l v = 0 := by
  unfold slotCount
  rw [List.countP_eq_zero]
  intro w hw
  unfold allSlots at hw
  rw [List.mem_flatMap] at hw
  obtain ⟨f, hf, hwf⟩ := hw
  simp only [beq_iff_eq]
  intro hwv
  subst hwv
  apply h f hf
  unfold cornersOf at hwf
  unfold isCorner
  simp only [List.mem_cons, List.mem_singleton, List.not_mem_nil, or_false] at hwf
  rcases hwf with h1 | h1 | h1 <;> [exact Or.inl h1.symm;
    exact Or.inr (Or.inl h1.symm); exact Or.inr (Or.inr h1.symm)]

lemma one_le_corner_count (f : Face) (v : Nat) (h : isCorner f v) :
    1 ≤ (cornersOf f).countP (fun w => w == v) := by
  unfold cornersOf
  rcases h with h | h | h <;>
    simp [List.countP_cons, h] <;> split_ifs <;> omega

lemma exists_last_incident (faces : List Face) (v : Nat)
    (h : 1 ≤ slotCount faces v) :
    ∃ i, i < faces.length ∧ isCorner (faces.getD i (0, 0, 0)) v ∧
      ∀ i', i < i' → i' < faces.length → ¬isCorner (faces.getD i' (0, 0, 0)) v := by
  induction faces using List.reverseRecOn with
  | nil =>
      exfalso
      simp [slotCount, allSlots] at h
  | append_singleton fs f ih =>
      by_cases hf : isCorner f v
      · refine ⟨fs.length, by simp, ?_, ?_⟩
        · have hg : (fs ++ [f]).getD fs.length (0, 0, 0) = f := by
            rw [List.getD_eq_getElem?_getD, List.getElem?_concat_length]
            rfl
          rw [hg]
          exact hf
        · intro i' hgt hlt
          rw [List.length_append, List.length_singleton] at hlt
          omega
      · have h' : 1 ≤ slotCount fs v := by
          rw [slotCount_append] at h
          have hz : slotCount [f] v = 0 := by
            apply slotCount_zero_of_no_incident
            intro g hg
            rw [List.mem_singleton] at hg
            subst hg
            exact hf
          omega
        obtain ⟨i, hi, hc, hlast⟩ := ih h'
        refine ⟨i, ?_, ?_, ?_⟩
        · rw [List.length_append]
          omega
        · have hg : (fs ++ [f]).getD i (0, 0, 0) = fs.getD i (0, 0, 0) := by
            rw [List.getD_eq_getElem?_getD, List.getD_eq_getElem?_getD,
              List.getElem?_append_left hi]
          rw [hg]
          exact hc
        · intro i' hgt hlt
          rw [List.length_append, List.length_singleton] at hlt
          by_cases hi' : i' < fs.length
          · have hg : (fs ++ [f]).getD i' (0, 0, 0) = fs.getD i' (0, 0, 0) := by
              rw [List.getD_eq_getElem?_getD, List.getD_eq_getElem?_getD,
                List.getElem?_append_left hi']
            rw [hg]
            exact hlast i' hgt hi'
          · have hieq : i' = fs.length := by omega
            subst hieq
            have hg : (fs ++ [f]).getD fs.length (0, 0, 0) = f := by
              rw [List.getD_eq_getElem?_getD, List.getElem?_concat_length]
              rfl
            rw [hg]
            exact hf

lemma countP_mod_range (T d : Nat) (hT1 : 1 ≤ T) (hT : T ≤ 255) (hd : d ≤ T) :
    (List.range d).countP (fun k => decide ((k + 1) % 256 = T % 256)) =
      if T ≤ d then 1 else 0 := by
  have hcongr : (List.range d).countP (fun k => decide ((k + 1) % 256 = T % 256)) =
      (List.range d).countP (fun k => decide (k = T - 1)) := by
    apply List.countP_congr
    intro k hk
    rw [List.mem_range] at hk
    simp only [decide_eq_true_eq]
    omega
  rw [hcongr, countP_range_single]
  by_cases hc : T ≤ d
  · rw [if_pos (by omega : T - 1 < d), if_pos hc]
  · rw [if_neg (by omega : ¬T - 1 < d), if_neg hc]

/-- Claim C10: `write_binary` tracks each vertex's incident-corner count in
an 8-bit counter, so `'f'` tokens for a vertex appear exactly at the corner
slots where the wrapped (mod 256) down-counter reaches zero (slot numbers
congruent to the total count mod 256); in particular a vertex with between
1 and 255 incident corner slots gets exactly one `'f'` token, emitted in
the block of its last incident face, and for larger counts the behavior
follows the wrapped counter rather than the true count. -/
theorem c10_f_token_follows_wrapped_counter (m : BMesh) (v : Nat)
    (hval : ∀ f ∈ m.faces, f.1 < m.verts.length ∧ f.2.1 < m.verts.length ∧
      f.2.2 < m.verts.length) :
    (numF (write_binary m) v =
      (List.range (slotCount m.faces v)).countP
        (fun k => decide ((k + 1) % 256 = slotCount m.faces v % 256))) ∧
    (1 ≤ slotCount m.faces v → slotCount m.faces v ≤ 255 →
      numF (write_binary m) v = 1 ∧
      ∃ i, i < m.faces.length ∧ isCorner (m.faces.getD i (0, 0, 0)) v ∧
        (∀ i', i < i' → i' < m.faces.length →
          ¬isCorner (m.faces.getD i' (0, 0, 0)) v) ∧
        numF (writeUpTo m i) v = 0 ∧ numF (writeUpTo m (i + 1)) v = 1) := by
  have key : ∀ fl : List Face,
      numF (writeFaces m (firstFace m.faces)
        (fun w => slotCount m.faces w % 256) 0 fl) v =
      (List.range (slotCount fl v)).countP
        (fun k => decide ((k + 1) % 256 = slotCount m.faces v % 256)) := by
    intro fl
    rw [writeFaces_numF, fTokens_numF, fEmits_eq_countP]
    apply List.countP_congr
    intro k hk
    simp only [decide_eq_true_eq]
    omega
  have hfull : numF (write_binary m) v =
      (List.range (slotCount m.faces v)).countP
        (fun k => decide ((k + 1) % 256 = slotCount m.faces v % 256)) :=
    key m.faces
  refine ⟨hfull, ?_⟩
  intro hT1 hT255
  obtain ⟨i, hi, hc, hlast⟩ := exists_last_incident m.faces v hT1
  have hnolater : ∀ g ∈ m.faces.drop (i + 1), ¬isCorner g v := by
    intro g hg
    obtain ⟨j, hj, hjg⟩ := List.mem_iff_getElem.mp hg
    have hlen : i + 1 + j < m.faces.length := by
      have := hj
      simp only [List.length_drop] at this
      omega
    have hjg2 : m.faces.getD (i + 1 + j) (0, 0, 0) = g := by
      rw [List.getD_eq_getElem m.faces (0, 0, 0) hlen, ← hjg]
      exact (List.getElem_drop ..).symm
    have hres := hlast (i + 1 + j) (by omega) hlen
    rw [hjg2] at hres
    exact hres
  have hdropz : slotCount (m.faces.drop (i + 1)) v = 0 :=
    slotCount_zero_of_no_incident _ v hnolater
  have hsplit1 : slotCount m.faces v =
      slotCount (m.faces.take (i + 1)) v + slotCount (m.faces.drop (i + 1)) v := by
    rw [← slotCount_append, List.take_append_drop]
  have hdropi : m.faces.drop i =
      m.faces.getD i (0, 0, 0) :: m.faces.drop (i + 1) := by
    rw [List.drop_eq_getElem_cons hi]
    congr 1
    exact (List.getD_eq_getElem m.faces (0, 0, 0) hi).symm
  have hsingle : slotCount [m.faces.getD i (0, 0, 0)] v =
      (cornersOf (m.faces.getD i (0, 0, 0))).countP (fun w => w == v) := by
    simp [slotCount, allSlots]
  have hocc : 1 ≤ slotCount [m.faces.getD i (0, 0, 0)] v := by
    rw [hsingle]
    exact one_le_corner_count _ v hc
  have hsplit2 : slotCount m.faces v =
      slotCount (m.faces.take i) v + slotCount (m.faces.drop i) v := by
    rw [← slotCount_append, List.take_append_drop]
  have hdropslots : slotCount (m.faces.drop i) v =
      slotCount [m.faces.getD i (0, 0, 0)] v + slotCount (m.faces.drop (i + 1)) v := by
    rw [hdropi]
    rw [show (m.faces.getD i (0, 0, 0) :: m.faces.drop (i + 1)) =
      [m.faces.getD i (0, 0, 0)] ++ m.faces.drop (i + 1) from rfl, slotCount_append]
  refine ⟨?_, i, hi, hc, hlast, ?_, ?_⟩
  · rw [hfull, countP_mod_range _ _ hT1 hT255 (le_refl _),
      if_pos (le_refl _)]
  · have hk := key (m.faces.take i)
    have hwu : numF (writeUpTo m i) v =
        (List.range (slotCount (m.faces.take i) v)).countP
          (fun k => decide ((k + 1) % 256 = slotCount m.faces v % 256)) := hk
    rw [hwu, countP_mod_range _ _ hT1 hT255 (by omega),
      if_neg (by omega : ¬slotCount m.faces v ≤ slotCount (m.faces.take i) v)]
  · have hk := key (m.faces.take (i + 1))
    have hwu : numF (writeUpTo m (i + 1)) v =
        (List.range (slotCount (m.faces.take (i + 1)) v)).countP
          (fun k => decide ((k + 1) % 256 = slotCount m.faces v % 256)) := hk
    rw [hwu, countP_mod_range _ _ hT1 hT255 (by omega),
      if_pos (by omega : slotCount m.faces v ≤ slotCount (m.faces.take (i + 1)) v)]

/-- A single-triangle mesh with no fields, used as the C10 witness input. -/
def c10Wit : BMesh := ⟨[(0, 0, 0), (1, 0, 0), (0, 1, 0)], [(0, 1, 2)], []⟩

/-- Witness for C10: the corner-validity hypothesis holds at the
single-triangle mesh, vertex 0. -/
theorem c10_witness :
    (∀ f ∈ c10Wit.faces, f.1 < c10Wit.verts.length ∧
      f.2.1 < c10Wit.verts.length ∧ f.2.2 < c10Wit.verts.length) ∧
    ((numF (write_binary c10Wit) 0 =
      (List.range (slotCount c10Wit.faces 0)).countP
        (fun k => decide ((k + 1) % 256 = slotCount c10Wit.faces 0 % 256))) ∧
    (1 ≤ slotCount c10Wit.faces 0 → slotCount c10Wit.faces 0 ≤ 255 →
      numF (write_binary c10Wit) 0 = 1 ∧
      ∃ i, i < c10Wit.faces.length ∧ isCorner (c10Wit.faces.getD i (0, 0, 0)) 0 ∧
        (∀ i', i < i' → i' < c10Wit.faces.length →
          ¬isCorner (c10Wit.faces.getD i' (0, 0, 0)) 0) ∧
        numF (writeUpTo c10Wit i) 0 = 0 ∧
        numF (writeUpTo c10Wit (i + 1)) 0 = 1)) :=
  ⟨by decide, c10_f_token_follows_wrapped_counter c10Wit 0 (by decide)⟩

/-- `TriMesh::need_adjacentfaces` (TriMesh.cpp:234-264): the list of face
indices incident to vertex `v`, in face-then-corner order, one entry per
corner slot equal to `v`. -/
def adjacentFaces (faces : List Face) (v : Nat) : List Nat :=
  (List.range faces.length).flatMap
    (fun i => (([0, 1, 2] : List Nat).filter
      (fun j => decide (fidx (faces.getD i (0, 0, 0)) j = v))).map (fun _ => i))

/-- The `vidx`/`ind` computation of the across-edge scan
(TriMesh.cpp:307-311): `vidx` is the first corner of `other` equal to `v1`
(`-1` if none, exactly as the C++ chain of conditionals), and
`ind = (vidx+1)%3` in `int` arithmetic. -/
def aeInd (faces : List Face) (other v1 : Nat) : Nat :=
  let fo := faces.getD other (0, 0, 0)
  let vidx : Int := if fidx fo 0 = v1 then 0 else if fidx fo 1 = v1 then 1
    else if fidx fo 2 = v1 then 2 else -1
  ((vidx + 1) % 3).toNat

/-- The candidate test of the across-edge scan (TriMesh.cpp:298-313) for
face `i` and directed edge `(v1, v2)`: candidate `other` must differ from
`i`, lie in `v2`'s adjacency list, and satisfy
`mFaces[other][(ind+1)%3] == v2`. -/
def aeCheck (faces : List Face) (i v1 v2 : Nat) (a2 : List Nat)
    (other : Nat) : Bool :=
  decide (other ≠ i) && a2.contains other &&
    decide (fidx (faces.getD other (0, 0, 0)) (aeInd faces other v1 + 1) = v2)

/-- Functional update of the across-edge table at one slot. -/
def aeWrite (T : Nat → Nat → Int) (a ja : Nat) (x : Int) : Nat → Nat → Int :=
  fun b jb => if b = a ∧ jb = ja then x else T b jb

/-- One `(i, j)` iteration of `TriMesh::need_across_edge`
(TriMesh.cpp:286-319): skip if already resolved, otherwise scan `v1`'s
adjacency list for the first matching neighbor and record the match
symmetrically on both faces. -/
def aeStep (faces : List Face) (T : Nat → Nat → Int) (p : Nat × Nat) :
    Nat → Nat → Int :=
  if T p.1 p.2 ≠ -1 then T
  else
    match (adjacentFaces faces (fidx (faces.getD p.1 (0, 0, 0)) (p.2 + 1))).find?
        (aeCheck faces p.1 (fidx (faces.getD p.1 (0, 0, 0)) (p.2 + 1))
          (fidx (faces.getD p.1 (0, 0, 0)) (p.2 + 2))
          (adjacentFaces faces (fidx (faces.getD p.1 (0, 0, 0)) (p.2 + 2)))) with
    | none => T
    | some other =>
        aeWrite (aeWrite T p.1 p.2 (Int.ofNat other)) other
          (aeInd faces other (fidx (faces.getD p.1 (0, 0, 0)) (p.2 + 1)))
          (Int.ofNat p.1)

/-- The `(face, local edge)` iteration space of the double loop. -/
def aePairs (nf : Nat) : List (Nat × Nat) :=
  (List.range nf).flatMap (fun i => [(i, 0), (i, 1), (i, 2)])

/-- `TriMesh::need_across_edge` (TriMesh.cpp:268-324): the across-edge
table (`-1` = boundary), produced by folding the scan over all face-edge
slots starting from the all-`-1` table. -/
def need_across_edge (faces : List Face) : Nat → Nat → Int :=
  (aePairs faces.length).foldl (aeStep faces) (fun _ _ => -1)

/-- Claim C3 as stated is false on non-manifold meshes: with three faces
sharing the edge {1,2} ((0,1,2), (2,1,3), (2,1,4)), processing face 2's
edge 2 overwrites face 0's entry (previously 1, set symmetrically with face
1's entry 2 -> 0), leaving face 1's edge 2 pointing at face 0 while no edge
of face 0 points back at face 1. -/
theorem c3_counterexample :
    need_across_edge [(0, 1, 2), (2, 1, 3), (2, 1, 4)] 1 2 = 0 ∧
    (∀ jb, jb < 3 →
      need_across_edge [(0, 1, 2), (2, 1, 3), (2, 1, 4)] 0 jb ≠ 1) := by
  decide

/-- The directed edge of a face-edge slot: edge `j` of face `i` runs from
`f[(j+1)%3]` to `f[(j+2)%3]`. -/
def dirEdge (faces : List Face) (p : Nat × Nat) : Nat × Nat :=
  (fidx (faces.getD p.1 (0, 0, 0)) (p.2 + 1),
   fidx (faces.getD p.1 (0, 0, 0)) (p.2 + 2))

/-- The undirected (sorted) edge of a face-edge slot. -/
def uEdge (faces : List Face) (p : Nat × Nat) : Nat × Nat :=
  (min (dirEdge faces p).1 (dirEdge faces p).2,
   max (dirEdge faces p).1 (dirEdge faces p).2)

lemma mem_aePairs (nf : Nat) (p : Nat × Nat) :
    p ∈ aePairs nf ↔ p.1 < nf ∧ p.2 < 3 := by
  unfold aePairs
  rw [List.mem_flatMap]
  constructor
  · rintro ⟨i, hi, hp⟩
    rw [List.mem_range] at hi
    rcases p with ⟨a, ja⟩
    simp only [List.mem_cons, List.not_mem_nil, or_false, Prod.mk.injEq,
      List.mem_singleton] at hp
    rcases hp with ⟨rfl, rfl⟩ | ⟨rfl, rfl⟩ | ⟨rfl, rfl⟩ <;>
      exact ⟨hi, by omega⟩
  · rintro ⟨h1, h2⟩
    refine ⟨p.1, List.mem_range.mpr h1, ?_⟩
    rcases p with ⟨a, ja⟩
    interval_cases ja <;> simp

lemma mem_adjacentFaces (faces : List Face) (v other : Nat)
    (h : other ∈ adjacentFaces faces v) :
    other < faces.length ∧
      ∃ k, k < 3 ∧ fidx (faces.getD other (0, 0, 0)) k = v := by
  unfold adjacentFaces at h
  rw [List.mem_flatMap] at h
  obtain ⟨i, hi, hmem⟩ := h
  rw [List.mem_range] at hi
  rw [List.mem_map] at hmem
  obtain ⟨j, hj, rfl⟩ := hmem
  rw [List.mem_filter] at hj
  obtain ⟨hj3, hjv⟩ := hj
  refine ⟨hi, j, ?_, of_decide_eq_true hjv⟩
  simp only [List.mem_cons, List.not_mem_nil, or_false,
    List.mem_singleton] at hj3
  omega

lemma aeInd_spec (faces : List Face) (other v1 : Nat)
    (h : ∃ k, k < 3 ∧ fidx (faces.getD other (0, 0, 0)) k = v1) :
    aeInd faces other v1 < 3 ∧
    fidx (faces.getD other (0, 0, 0)) (aeInd faces other v1 + 2) = v1 := by
  unfold aeInd
  dsimp only
  by_cases h0 : fidx (faces.getD other (0, 0, 0)) 0 = v1
  · rw [if_pos h0]
    exact ⟨by decide, h0⟩
  · rw [if_neg h0]
    by_cases h1 : fidx (faces.getD other (0, 0, 0)) 1 = v1
    · rw [if_pos h1]
      exact ⟨by decide, h1⟩
    · rw [if_neg h1]
      by_cases h2 : fidx (faces.getD other (0, 0, 0)) 2 = v1
      · rw [if_pos h2]
        exact ⟨by decide, h2⟩
      · exfalso
        obtain ⟨k, hk3, hkv⟩ := h
        interval_cases k
        · exact h0 hkv
        · exact h1 hkv
        · exact h2 hkv

/-- The pairing invariant of the across-edge fold: every resolved entry is
in range, points at a different face, and has a partner entry pointing back
across the reversed directed edge. -/
def AEGood (faces : List Face) (T : Nat → Nat → Int) : Prop :=
  (∀ a ja, (faces.length ≤ a ∨ 3 ≤ ja) → T a ja = -1) ∧
  (∀ a ja, a < faces.length → ja < 3 → T a ja ≠ -1 →
    ∃ b jb, b < faces.length ∧ jb < 3 ∧ T a ja = Int.ofNat b ∧ b ≠ a ∧
      T b jb = Int.ofNat a ∧
      fidx (faces.getD b (0, 0, 0)) (jb + 1) =
        fidx (faces.getD a (0, 0, 0)) (ja + 2) ∧
      fidx (faces.getD b (0, 0, 0)) (jb + 2) =
        fidx (faces.getD a (0, 0, 0)) (ja + 1))

lemma aeGood_step (faces : List Face)
    (hm : ∀ p1 ∈ aePairs faces.length, ∀ p2 ∈ aePairs faces.length,
      ∀ p3 ∈ aePairs faces.length, uEdge faces p1 = uEdge faces p2 →
        uEdge faces p2 = uEdge faces p3 → p1 = p2 ∨ p1 = p3 ∨ p2 = p3)
    (T : Nat → Nat → Int) (p : Nat × Nat) (hp : p ∈ aePairs faces.length)
    (hT : AEGood faces T) : AEGood faces (aeStep faces T p) := by
  obtain ⟨hp1, hp2⟩ := (mem_aePairs faces.length p).mp hp
  obtain ⟨hoor, hsym⟩ := hT
  unfold aeStep
  by_cases hdone : T p.1 p.2 ≠ -1
  · rw [if_pos hdone]
    exact ⟨hoor, hsym⟩
  · rw [if_neg hdone]
    push_neg at hdone
    rcases hfind : (adjacentFaces faces
        (fidx (faces.getD p.1 (0, 0, 0)) (p.2 + 1))).find?
        (aeCheck faces p.1 (fidx (faces.getD p.1 (0, 0, 0)) (p.2 + 1))
          (fidx (faces.getD p.1 (0, 0, 0)) (p.2 + 2))
          (adjacentFaces faces (fidx (faces.getD p.1 (0, 0, 0)) (p.2 + 2))))
        with _ | other
    · exact ⟨hoor, hsym⟩
    · show AEGood faces (aeWrite (aeWrite T p.1 p.2 (Int.ofNat other)) other
        (aeInd faces other (fidx (faces.getD p.1 (0, 0, 0)) (p.2 + 1)))
        (Int.ofNat p.1))
      have hcheck := List.find?_some hfind
      have hmem1 := List.mem_of_find?_eq_some hfind
      unfold aeCheck at hcheck
      rw [Bool.and_eq_true, Bool.and_eq_true] at hcheck
      have hne : other ≠ p.1 := of_decide_eq_true hcheck.1.1
      have hedge1 : fidx (faces.getD other (0, 0, 0))
          (aeInd faces other (fidx (faces.getD p.1 (0, 0, 0)) (p.2 + 1)) + 1) =
          fidx (faces.getD p.1 (0, 0, 0)) (p.2 + 2) :=
        of_decide_eq_true hcheck.2
      obtain ⟨holt, hk⟩ := mem_adjacentFaces faces _ other hmem1
      obtain ⟨hind3, hedge2⟩ := aeInd_spec faces other _ hk
      have hToi : T other
          (aeInd faces other (fidx (faces.getD p.1 (0, 0, 0)) (p.2 + 1))) = -1 := by
        by_contra hToi
        obtain ⟨c, jc, hclt, hjc3, hTc, hcneq, hTcc, he1, he2⟩ :=
          hsym other _ holt hind3 hToi
        have hd1 : dirEdge faces (c, jc) = dirEdge faces p := by
          unfold dirEdge
          dsimp only
          rw [he1, he2, hedge1, hedge2]
        have hu1 : uEdge faces (c, jc) = uEdge faces p := by
          unfold uEdge
          rw [hd1]
        have hu2 : uEdge faces p = uEdge faces (other,
            aeInd faces other (fidx (faces.getD p.1 (0, 0, 0)) (p.2 + 1))) := by
          unfold uEdge dirEdge
          dsimp only
          rw [hedge1, hedge2]
          exact Prod.ext_iff.mpr ⟨min_comm _ _, max_comm _ _⟩
        rcases hm (c, jc) ((mem_aePairs _ _).mpr ⟨hclt, hjc3⟩) p hp
            (other, aeInd faces other (fidx (faces.getD p.1 (0, 0, 0)) (p.2 + 1)))
            ((mem_aePairs _ _).mpr ⟨holt, hind3⟩) hu1 hu2 with heq | heq | heq
        · have hc1 : c = p.1 := congrArg Prod.fst heq
          have hc2 : jc = p.2 := congrArg Prod.snd heq
          rw [hc1, hc2, hdone] at hTcc
          simp only [Int.ofNat_eq_coe] at hTcc
          omega
        · exact hcneq (congrArg Prod.fst heq)
        · exact hne (congrArg Prod.fst heq).symm
      constructor
      · intro a ja hcase
        have h1 : ¬(a = other ∧
            ja = aeInd faces other (fidx (faces.getD p.1 (0, 0, 0)) (p.2 + 1))) := by
          rintro ⟨rfl, rfl⟩
          rcases hcase with hh | hh <;> omega
        have h2 : ¬(a = p.1 ∧ ja = p.2) := by
          rintro ⟨rfl, rfl⟩
          rcases hcase with hh | hh <;> omega
        unfold aeWrite
        rw [if_neg h1, if_neg h2]
        exact hoor a ja hcase
      · intro a ja halt hja3 hne'
        by_cases hap : a = p.1 ∧ ja = p.2
        · obtain ⟨rfl, rfl⟩ := hap
          refine ⟨other,
            aeInd faces other (fidx (faces.getD p.1 (0, 0, 0)) (p.2 + 1)),
            holt, hind3, ?_, hne, ?_, hedge1, hedge2⟩
          · unfold aeWrite
            rw [if_neg (fun hq => hne hq.1.symm), if_pos ⟨rfl, rfl⟩]
          · unfold aeWrite
            rw [if_pos ⟨rfl, rfl⟩]
        · by_cases haoi : a = other ∧
              ja = aeInd faces other (fidx (faces.getD p.1 (0, 0, 0)) (p.2 + 1))
          · obtain ⟨rfl, rfl⟩ := haoi
            refine ⟨p.1, p.2, hp1, hp2, ?_, fun hq => hne hq.symm, ?_,
              hedge2.symm, hedge1.symm⟩
            · unfold aeWrite
              rw [if_pos ⟨rfl, rfl⟩]
            · unfold aeWrite
              rw [if_neg (fun hq => hne hq.1.symm), if_pos ⟨rfl, rfl⟩]
          · have hTa : aeWrite (aeWrite T p.1 p.2 (Int.ofNat other)) other
                (aeInd faces other (fidx (faces.getD p.1 (0, 0, 0)) (p.2 + 1)))
                (Int.ofNat p.1) a ja = T a ja := by
              unfold aeWrite
              rw [if_neg haoi, if_neg hap]
            rw [hTa] at hne'
            obtain ⟨b, jb, hblt, hjb3, hTb, hbne, hTbb, he1, he2⟩ :=
              hsym a ja halt hja3 hne'
            have hb1 : ¬(b = p.1 ∧ jb = p.2) := by
              rintro ⟨rfl, rfl⟩
              rw [hdone] at hTbb
              simp only [Int.ofNat_eq_coe] at hTbb
              omega
            have hb2 : ¬(b = other ∧
                jb = aeInd faces other (fidx (faces.getD p.1 (0, 0, 0)) (p.2 + 1))) := by
              rintro ⟨rfl, rfl⟩
              rw [hToi] at hTbb
              simp only [Int.ofNat_eq_coe] at hTbb
              omega
            refine ⟨b, jb, hblt, hjb3, ?_, hbne, ?_, he1, he2⟩
            · rw [hTa]
              exact hTb
            · unfold aeWrite
              rw [if_neg hb2, if_neg hb1]
              exact hTbb

/-- Claim C3 (amended): after `need_across_edge`, for meshes in which every
undirected edge is carried by at most two face-edge slots (the manifold
condition; the code itself warns "If topology is bad, not necessarily what
one would expect"), every resolved entry is symmetric: if face `i`'s edge
`j` maps to face `k`, some local edge of `k` maps back to `i`. -/
theorem c3_across_edge_symmetric_on_manifold (faces : List Face)
    (hm : ∀ p1 ∈ aePairs faces.length, ∀ p2 ∈ aePairs faces.length,
      ∀ p3 ∈ aePairs faces.length, uEdge faces p1 = uEdge faces p2 →
        uEdge faces p2 = uEdge faces p3 → p1 = p2 ∨ p1 = p3 ∨ p2 = p3)
    (i j : Nat) (hi : i < faces.length) (hj : j < 3)
    (hne : need_across_edge faces i j ≠ -1) :
    ∃ k jb, need_across_edge faces i j = Int.ofNat k ∧ jb < 3 ∧
      need_across_edge faces k jb = Int.ofNat i := by
  have hgood : AEGood faces (need_across_edge faces) := by
    unfold need_across_edge
    apply foldl_inv (AEGood faces) _ (aeStep faces)
    · constructor
      · intro a ja _
        rfl
      · intro a ja _ _ hne'
        exact absurd rfl hne'
    · intro s x hx hs
      exact aeGood_step faces hm s x hx hs
  obtain ⟨b, jb, hblt, hjb3, hTb, hbne, hTbb, -, -⟩ := hgood.2 i j hi hj hne
  exact ⟨b, jb, hTb, hjb3, hTbb⟩

/-- Two triangles sharing the edge {0,2}, a manifold configuration used as
the C3 witness input. -/
def c3WitFaces : List Face := [(0, 1, 2), (0, 2, 3)]

/-- Witness for C3: the manifold hypothesis holds for two triangles sharing
one edge, face 0's edge 1 resolves to face 1, and the theorem yields the
symmetric back-pointer. -/
theorem c3_witness :
    (∀ p1 ∈ aePairs c3WitFaces.length, ∀ p2 ∈ aePairs c3WitFaces.length,
      ∀ p3 ∈ aePairs c3WitFaces.length,
        uEdge c3WitFaces p1 = uEdge c3WitFaces p2 →
        uEdge c3WitFaces p2 = uEdge c3WitFaces p3 →
        p1 = p2 ∨ p1 = p3 ∨ p2 = p3) ∧
    0 < c3WitFaces.length ∧ 1 < 3 ∧ need_across_edge c3WitFaces 0 1 ≠ -1 ∧
    (∃ k jb, need_across_edge c3WitFaces 0 1 = Int.ofNat k ∧ jb < 3 ∧
      need_across_edge c3WitFaces k jb = Int.ofNat 0) :=
  ⟨by decide, by decide, by decide, by decide,
   c3_across_edge_symmetric_on_manifold c3WitFaces (by decide) 0 1 (by decide)
     (by decide) (by decide)⟩

/-- The collection phase of `TriMesh::need_boundary` (TriMesh.cpp:342-349):
every face-edge slot whose across-edge entry is the sentinel `-1`
contributes the oriented edge `(f[(j+1)%3], f[(j+2)%3])`. -/
def collectBedges (faces : List Face) (T : Nat → Nat → Int) : List (Nat × Nat) :=
  (aePairs faces.length).filterMap
    (fun p => if T p.1 p.2 = -1 then
      some (fidx (faces.getD p.1 (0, 0, 0)) (p.2 + 1),
            fidx (faces.getD p.1 (0, 0, 0)) (p.2 + 2))
      else none)

/-- Swap two in-range elements of the boundary-edge vector (no-op when an
index is out of range; the code only swaps in-range indices). -/
def swapL (l : List (Nat × Nat)) (i j : Nat) : List (Nat × Nat) :=
  match l.get? i, l.get? j with
  | some x, some y => (l.set i y).set j x
  | _, _ => l

/-- The reordering loop of `need_boundary` (TriMesh.cpp:353-392) with
`size_t` semantics.  `remaining` is the number of loop iterations left
(`bound - bidx` for bound `(nbedges-1) mod 2^64`).  The inner scan looks
for a later edge starting at the current edge's end (all its accesses are
in range); on failure the code compares `bedges[bidx][1] == bedges[0][0]`,
which indexes the vector out of range when it is empty — modelled as
`Except.error ()`.  The diagnostic-and-break path returns the edges found
so far. -/
def orientIter : Nat → Nat → List (Nat × Nat) → Except Unit (List (Nat × Nat))
  | 0, _, bedges => Except.ok bedges
  | remaining + 1, bidx, bedges =>
      match ((List.range bedges.length).drop (bidx + 1)).find?
          (fun jidx => (bedges.getD jidx (0, 0)).1 == (bedges.getD bidx (0, 0)).2)
          with
      | some jidx => orientIter remaining (bidx + 1) (swapL bedges (bidx + 1) jidx)
      | none =>
          match bedges.get? bidx, bedges.get? 0 with
          | some eb, some e0 =>
              if eb.2 = e0.1 then orientIter remaining (bidx + 1) bedges
              else Except.ok bedges
          | _, _ => Except.error ()

/-- `TriMesh::need_boundary` (TriMesh.cpp:327-399): collect the sentinel
edges, then run the reordering loop whose `size_t` bound is
`(nbedges - 1) mod 2^64`. -/
def need_boundary (faces : List Face) : Except Unit (List (Nat × Nat)) :=
  orientIter
    (((collectBedges faces (need_across_edge faces)).length + (2 ^ 64 - 1)) % 2 ^ 64)
    0 (collectBedges faces (need_across_edge faces))

lemma orientIter_nil_error (fuel : Nat) :
    orientIter (fuel + 1) 0 [] = Except.error () := rfl

/-- A tetrahedron: a closed, manifold mesh (every across-edge entry
resolved, boundary edge list empty). -/
def tetraFaces : List Face := [(0, 1, 2), (0, 2, 3), (0, 3, 1), (1, 3, 2)]

/-- Claim C2 is right about the intent but the code violates it
(code bug): on a closed manifold mesh (the tetrahedron) the across-edge
table has no sentinel entries and the collected boundary list is empty, but
`nbedges - 1` underflows in `size_t` to `2^64 - 1`, the reordering loop is
entered, and `bedges[bidx][1] == bedges[0][0]` indexes the empty vector out
of range. -/
theorem c2_closed_mesh_boundary_oob :
    (∀ i, i < tetraFaces.length → ∀ j, j < 3 →
      need_across_edge tetraFaces i j ≠ -1) ∧
    collectBedges tetraFaces (need_across_edge tetraFaces) = [] ∧
    need_boundary tetraFaces = Except.error () := by
  have hcollect : collectBedges tetraFaces (need_across_edge tetraFaces) = [] := by
    decide
  refine ⟨by decide, hcollect, ?_⟩
  unfold need_boundary
  rw [hcollect]
  have h2 : ((([] : List (Nat × Nat)).length + (2 ^ 64 - 1)) % 2 ^ 64)
      = 18446744073709551614 + 1 := by norm_num
  rw [h2]
  exact orientIter_nil_error 18446744073709551614

/-- The state built by the post-processing loop of
`TriMeshPeriodic::delaunay` (TriMesh_cgal.cpp:199-273): fully-inside faces,
raw periodic faces, trimmed faces, the duplicate-key list
(`mDuplicateVerts_OrigIds`), and the handle-to-new-index map
(`duplicateHandles`, modelled as an association list — `std::map` ordering
only affects lookup, which the association list reproduces). -/
structure PDState where
  mFaces : List Face
  mPeriodicFaces : List Face
  mTrimmedFaces : List Face
  dupIds : List (Nat × Int × Int)
  handleMap : List (Nat × Nat)
deriving DecidableEq

/-- Association-list lookup for the duplicate-handle map. -/
def alookup : List (Nat × Nat) → Nat → Option Nat
  | [], _ => none
  | (h, idx) :: rest, x => if x = h then some idx else alookup rest x

/-- Offset normalization (TriMesh_cgal.cpp:253-254): the 9-sheeted covering
reports per-axis offsets in {0,1,2}; value 2 means -1. -/
def normOff (o : Nat) : Int := if o = 2 then -1 else Int.ofNat o

/-- The duplicate-vertex key `dupMap(origId, off1, off2)` of a vertex
handle `h`, where `info h` is the original vertex id and `off h` the
periodic offset pair of the handle. -/
def dkey (info : Nat → Nat) (off : Nat → Nat × Nat) (h : Nat) :
    Nat × Int × Int :=
  (info h, normOff (off h).1, normOff (off h).2)

/-- Resolve one corner of a periodic face (TriMesh_cgal.cpp:238-262): an
in-domain corner keeps its original id; an out-of-domain corner is looked
up in the duplicate map, creating the entry (key appended to the duplicate
list, new index `size + nOrigVerts - 1`) when absent. -/
def resolveCorner (info : Nat → Nat) (off : Nat → Nat × Nat) (norig : Nat)
    (s : List (Nat × Int × Int) × List (Nat × Nat)) (h : Nat) :
    (List (Nat × Int × Int) × List (Nat × Nat)) × Nat :=
  if off h = (0, 0) then (s, info h)
  else
    match alookup s.2 h with
    | some idx => (s, idx)
    | none =>
        ((s.1 ++ [dkey info off h],
          s.2 ++ [(h, (s.1 ++ [dkey info off h]).length + norig - 1)]),
         (s.1 ++ [dkey info off h]).length + norig - 1)

/-- Number of in-domain corners (`num_orig_verts`) of a handle triple. -/
def numOrig (off : Nat → Nat × Nat) (f : Nat × Nat × Nat) : Nat :=
  (if off f.1 = (0, 0) then 1 else 0) + (if off f.2.1 = (0, 0) then 1 else 0) +
    (if off f.2.2 = (0, 0) then 1 else 0)

/-- One face of the classification loop (TriMesh_cgal.cpp:209-264): zero
in-domain corners are discarded, three are kept as-is, and partially
in-domain faces are recorded raw in the periodic list and trimmed (each
out-of-domain corner replaced by its duplicate index). -/
def pdStep (info : Nat → Nat) (off : Nat → Nat × Nat) (norig : Nat)
    (st : PDState) (f : Nat × Nat × Nat) : PDState :=
  if numOrig off f = 0 then st
  else if numOrig off f = 3 then
    { st with mFaces := st.mFaces ++ [(info f.1, info f.2.1, info f.2.2)] }
  else
    { mFaces := st.mFaces,
      mPeriodicFaces := st.mPeriodicFaces ++ [(info f.1, info f.2.1, info f.2.2)],
      mTrimmedFaces := st.mTrimmedFaces ++
        [((resolveCorner info off norig (st.dupIds, st.handleMap) f.1).2,
          (resolveCorner info off norig
            (resolveCorner info off norig (st.dupIds, st.handleMap) f.1).1 f.2.1).2,
          (resolveCorner info off norig
            (resolveCorner info off norig
              (resolveCorner info off norig (st.dupIds, st.handleMap) f.1).1
              f.2.1).1 f.2.2).2)],
      dupIds := (resolveCorner info off norig
        (resolveCorner info off norig
          (resolveCorner info off norig (st.dupIds, st.handleMap) f.1).1
          f.2.1).1 f.2.2).1.1,
      handleMap := (resolveCorner info off norig
        (resolveCorner info off norig
          (resolveCorner info off norig (st.dupIds, st.handleMap) f.1).1
          f.2.1).1 f.2.2).1.2 }

/-- The post-processing of `TriMeshPeriodic::delaunay` over the finite
faces of the periodic triangulation, starting from empty state. -/
def periodic_delaunay_post (info : Nat → Nat) (off : Nat → Nat × Nat)
    (norig : Nat) (tfaces : List (Nat × Nat × Nat)) : PDState :=
  tfaces.foldl (pdStep info off norig) ⟨[], [], [], [], []⟩

/-- All vertex handles occurring in the triangulated faces. -/
def handlesOf (tfaces : List (Nat × Nat × Nat)) : List Nat :=
  tfaces.flatMap (fun f => [f.1, f.2.1, f.2.2])

lemma alookup_append (l1 l2 : List (Nat × Nat)) (x : Nat) :
    alookup (l1 ++ l2) x =
      match alookup l1 x with
      | some v => some v
      | none => alookup l2 x := by
  induction l1 with
  | nil => rfl
  | cons p rest ih =>
      rcases p with ⟨h, idx⟩
      by_cases hx : x = h
      · simp [alookup, hx]
      · simp [alookup, hx, ih]

/-- The duplicate list / handle map correspondence maintained by the
classification loop. -/
def MapGood (info : Nat → Nat) (off : Nat → Nat × Nat) (norig : Nat)
    (handles : List Nat) (dl : List (Nat × Int × Int))
    (hmap : List (Nat × Nat)) : Prop :=
  (∀ h idx, alookup hmap h = some idx →
    ∃ q, q < dl.length ∧ idx = norig + q ∧ dl.get? q = some (dkey info off h)) ∧
  (∀ q, q < dl.length → ∃ h, h ∈ handles ∧ alookup hmap h = some (norig + q) ∧
    dl.get? q = some (dkey info off h))

lemma resolveCorner_good (info : Nat → Nat) (off : Nat → Nat × Nat)
    (norig : Nat) (handles : List Nat)
    (dl : List (Nat × Int × Int)) (hmap : List (Nat × Nat)) (h : Nat)
    (hmem : h ∈ handles) (hg : MapGood info off norig handles dl hmap) :
    MapGood info off norig handles
      (resolveCorner info off norig (dl, hmap) h).1.1
      (resolveCorner info off norig (dl, hmap) h).1.2 ∧
    (∃ t, (resolveCorner info off norig (dl, hmap) h).1.1 = dl ++ t) ∧
    (off h = (0, 0) → (resolveCorner info off norig (dl, hmap) h).2 = info h) ∧
    (off h ≠ (0, 0) → (resolveCorner info off norig (dl, hmap) h).2 <
      norig + (resolveCorner info off norig (dl, hmap) h).1.1.length) := by
  obtain ⟨hfwd, hbwd⟩ := hg
  by_cases hoff : off h = (0, 0)
  · have hred : resolveCorner info off norig (dl, hmap) h = ((dl, hmap), info h) := by
      unfold resolveCorner
      rw [if_pos hoff]
    rw [hred]
    exact ⟨⟨hfwd, hbwd⟩, ⟨[], by simp⟩, fun _ => rfl, fun hc => absurd hoff hc⟩
  · rcases hlk : alookup hmap h with _ | idx
    · have hval : (dl ++ [dkey info off h]).length + norig - 1 =
          dl.length + norig := by
        rw [List.length_append, List.length_singleton]
        omega
      have hred : resolveCorner info off norig (dl, hmap) h =
          ((dl ++ [dkey info off h], hmap ++ [(h, dl.length + norig)]),
           dl.length + norig) := by
        unfold resolveCorner
        rw [if_neg hoff]
        dsimp only
        rw [hlk, hval]
      rw [hred]
      dsimp only
      refine ⟨⟨?_, ?_⟩, ⟨[dkey info off h], rfl⟩, fun hc => absurd hc hoff, ?_⟩
      · intro x idx' hx
        rw [alookup_append] at hx
        rcases hx2 : alookup hmap x with _ | idx2
        · rw [hx2] at hx
          dsimp only at hx
          unfold alookup at hx
          by_cases hxh : x = h
          · rw [if_pos hxh] at hx
            cases hx
            refine ⟨dl.length, ?_, by omega, ?_⟩
            · rw [List.length_append, List.length_singleton]
              omega
            · rw [hxh, List.get?_concat_length]
          · rw [if_neg hxh] at hx
            cases hx
        · rw [hx2] at hx
          dsimp only at hx
          have hxi : idx' = idx2 := (Option.some.inj hx).symm
          subst hxi
          obtain ⟨q, hq, hidx, hkey⟩ := hfwd x idx' hx2
          refine ⟨q, ?_, hidx, ?_⟩
          · rw [List.length_append, List.length_singleton]
            omega
          · rw [List.get?_append hq]
            exact hkey
      · intro q hq
        rw [List.length_append, List.length_singleton] at hq
        by_cases hqlt : q < dl.length
        · obtain ⟨x, hxmem, hxlk, hxkey⟩ := hbwd q hqlt
          refine ⟨x, hxmem, ?_, ?_⟩
          · rw [alookup_append, hxlk]
          · rw [List.get?_append hqlt]
            exact hxkey
        · have hqeq : q = dl.length := by omega
          subst hqeq
          refine ⟨h, hmem, ?_, ?_⟩
          · rw [alookup_append, hlk]
            dsimp only
            unfold alookup
            rw [if_pos rfl]
            congr 1
            omega
          · rw [List.get?_concat_length]
      · intro _
        rw [List.length_append, List.length_singleton]
        omega
    · have hred : resolveCorner info off norig (dl, hmap) h = ((dl, hmap), idx) := by
        unfold resolveCorner
        rw [if_neg hoff]
        dsimp only
        rw [hlk]
      rw [hred]
      dsimp only
      refine ⟨⟨hfwd, hbwd⟩, ⟨[], by simp⟩, fun hc => absurd hc hoff, ?_⟩
      intro _
      obtain ⟨q, hq, hidx, -⟩ := hfwd h idx hlk
      omega

/-- Full loop invariant of the classification loop: duplicate-map
correspondence plus the vertex-index bound on all kept faces. -/
def PDInv (info : Nat → Nat) (off : Nat → Nat × Nat) (norig : Nat)
    (handles : List Nat) (st : PDState) : Prop :=
  MapGood info off norig handles st.dupIds st.handleMap ∧
  (∀ f ∈ st.mFaces ++ st.mTrimmedFaces,
    f.1 < norig + st.dupIds.length ∧ f.2.1 < norig + st.dupIds.length ∧
    f.2.2 < norig + st.dupIds.length)

lemma mem_handlesOf (tfaces : List (Nat × Nat × Nat)) (f : Nat × Nat × Nat)
    (hf : f ∈ tfaces) : f.1 ∈ handlesOf tfaces ∧ f.2.1 ∈ handlesOf tfaces ∧
      f.2.2 ∈ handlesOf tfaces := by
  unfold handlesOf
  refine ⟨?_, ?_, ?_⟩ <;> rw [List.mem_flatMap] <;> exact ⟨f, hf, by simp⟩

lemma pdStep_inv (info : Nat → Nat) (off : Nat → Nat × Nat) (norig : Nat)
    (tfaces : List (Nat × Nat × Nat))
    (hinfo : ∀ h ∈ handlesOf tfaces, info h < norig)
    (st : PDState) (f : Nat × Nat × Nat) (hf : f ∈ tfaces)
    (hst : PDInv info off norig (handlesOf tfaces) st) :
    PDInv info off norig (handlesOf tfaces) (pdStep info off norig st f) := by
  obtain ⟨hmg, hfb⟩ := hst
  obtain ⟨hm1, hm2, hm3⟩ := mem_handlesOf tfaces f hf
  unfold pdStep
  by_cases h0 : numOrig off f = 0
  · rw [if_pos h0]
    exact ⟨hmg, hfb⟩
  · rw [if_neg h0]
    by_cases h3 : numOrig off f = 3
    · rw [if_pos h3]
      refine ⟨hmg, ?_⟩
      intro g hg
      dsimp only at hg ⊢
      rcases List.mem_append.mp hg with hg1 | hg2
      · rcases List.mem_append.mp hg1 with hga | hgb
        · exact hfb g (List.mem_append.mpr (Or.inl hga))
        · rw [List.mem_singleton] at hgb
          subst hgb
          have hb1 := hinfo _ hm1
          have hb2 := hinfo _ hm2
          have hb3 := hinfo _ hm3
          exact ⟨by dsimp only; omega, by dsimp only; omega,
            by dsimp only; omega⟩
      · exact hfb g (List.mem_append.mpr (Or.inr hg2))
    · rw [if_neg h3]
      obtain ⟨hg1, ⟨t1, he1⟩, hin1, hout1⟩ :=
        resolveCorner_good info off norig (handlesOf tfaces) st.dupIds
          st.handleMap f.1 hm1 hmg
      obtain ⟨hg2, ⟨t2, he2⟩, hin2, hout2⟩ :=
        resolveCorner_good info off norig (handlesOf tfaces)
          (resolveCorner info off norig (st.dupIds, st.handleMap) f.1).1.1
          (resolveCorner info off norig (st.dupIds, st.handleMap) f.1).1.2
          f.2.1 hm2 hg1
      have hg2' : MapGood info off norig (handlesOf tfaces)
          (resolveCorner info off norig
            (resolveCorner info off norig (st.dupIds, st.handleMap) f.1).1
            f.2.1).1.1
          (resolveCorner info off norig
            (resolveCorner info off norig (st.dupIds, st.handleMap) f.1).1
            f.2.1).1.2 := hg2
      have he2' : (resolveCorner info off norig
          (resolveCorner info off norig (st.dupIds, st.handleMap) f.1).1
          f.2.1).1.1 =
          (resolveCorner info off norig (st.dupIds, st.handleMap) f.1).1.1 ++ t2 :=
        he2
      have hin2' : off f.2.1 = (0, 0) → (resolveCorner info off norig
          (resolveCorner info off norig (st.dupIds, st.handleMap) f.1).1
          f.2.1).2 = info f.2.1 := hin2
      have hout2' : off f.2.1 ≠ (0, 0) → (resolveCorner info off norig
          (resolveCorner info off norig (st.dupIds, st.handleMap) f.1).1
          f.2.1).2 < norig + (resolveCorner info off norig
          (resolveCorner info off norig (st.dupIds, st.handleMap) f.1).1
          f.2.1).1.1.length := hout2
      obtain ⟨hg3, ⟨t3, he3⟩, hin3, hout3⟩ :=
        resolveCorner_good info off norig (handlesOf tfaces)
          (resolveCorner info off norig
            (resolveCorner info off norig (st.dupIds, st.handleMap) f.1).1
            f.2.1).1.1
          (resolveCorner info off norig
            (resolveCorner info off norig (st.dupIds, st.handleMap) f.1).1
            f.2.1).1.2
          f.2.2 hm3 hg2'
      have hg3' : MapGood info off norig (handlesOf tfaces)
          (resolveCorner info off norig
            (resolveCorner info off norig
              (resolveCorner info off norig (st.dupIds, st.handleMap) f.1).1
              f.2.1).1 f.2.2).1.1
          (resolveCorner info off norig
            (resolveCorner info off norig
              (resolveCorner info off norig (st.dupIds, st.handleMap) f.1).1
              f.2.1).1 f.2.2).1.2 := hg3
      have he3' : (resolveCorner info off norig
          (resolveCorner info off norig
            (resolveCorner info off norig (st.dupIds, st.handleMap) f.1).1
            f.2.1).1 f.2.2).1.1 =
          (resolveCorner info off norig
            (resolveCorner info off norig (st.dupIds, st.handleMap) f.1).1
            f.2.1).1.1 ++ t3 := he3
      have hin3' : off f.2.2 = (0, 0) → (resolveCorner info off norig
          (resolveCorner info off norig
            (resolveCorner info off norig (st.dupIds, st.handleMap) f.1).1
            f.2.1).1 f.2.2).2 = info f.2.2 := hin3
      have hout3' : off f.2.2 ≠ (0, 0) → (resolveCorner info off norig
          (resolveCorner info off norig
            (resolveCorner info off norig (st.dupIds, st.handleMap) f.1).1
            f.2.1).1 f.2.2).2 < norig + (resolveCorner info off norig
          (resolveCorner info off norig
            (resolveCorner info off norig (st.dupIds, st.handleMap) f.1).1
            f.2.1).1 f.2.2).1.1.length := hout3
      refine ⟨hg3', ?_⟩
      intro g hg
      dsimp only at hg ⊢
      have hl1 : (resolveCorner info off norig (st.dupIds, st.handleMap) f.1).1.1.length
          = st.dupIds.length + t1.length := by
        rw [he1, List.length_append]
      have hl2 : (resolveCorner info off norig
            (resolveCorner info off norig (st.dupIds, st.handleMap) f.1).1
            f.2.1).1.1.length =
          (resolveCorner info off norig (st.dupIds, st.handleMap) f.1).1.1.length +
            t2.length := by
        rw [he2', List.length_append]
      have hl3 : (resolveCorner info off norig
            (resolveCorner info off norig
              (resolveCorner info off norig (st.dupIds, st.handleMap) f.1).1
              f.2.1).1 f.2.2).1.1.length =
          (resolveCorner info off norig
            (resolveCorner info off norig (st.dupIds, st.handleMap) f.1).1
            f.2.1).1.1.length + t3.length := by
        rw [he3', List.length_append]
      rcases List.mem_append.mp hg with hg1' | hg2'
      · obtain ⟨hb1, hb2, hb3⟩ := hfb g (List.mem_append.mpr (Or.inl hg1'))
        exact ⟨by omega, by omega, by omega⟩
      · rcases List.mem_append.mp hg2' with hga | hgb
        · obtain ⟨hb1, hb2, hb3⟩ := hfb g (List.mem_append.mpr (Or.inr hga))
          exact ⟨by omega, by omega, by omega⟩
        · rw [List.mem_singleton] at hgb
          subst hgb
          refine ⟨?_, ?_, ?_⟩ <;> dsimp only
          · by_cases ho1 : off f.1 = (0, 0)
            · rw [hin1 ho1]
              have := hinfo _ hm1
              omega
            · have := hout1 ho1
              omega
          · by_cases ho2 : off f.2.1 = (0, 0)
            · rw [hin2' ho2]
              have := hinfo _ hm2
              omega
            · have := hout2' ho2
              omega
          · by_cases ho3 : off f.2.2 = (0, 0)
            · rw [hin3' ho3]
              have := hinfo _ hm3
              omega
            · have := hout3' ho3
              omega

/-- Claim C7: after the periodic-reconstruction post-processing, every
duplicate-vertex key (original id, normalized offset pair) appears at most
once in the duplicate list; each entry at position `q` is the key of a handle
mapped to the new vertex index `norig + q` (appended after all originals);
and every face in the final kept set (fully-inside plus trimmed faces)
references only vertex indices below `norig + duplicate_count`.  The
hypotheses state what CGAL guarantees for the 9-sheeted covering: vertex
handles are in bijection with (original id, offset) pairs, and `info`
returns an original vertex index. -/
theorem c7_periodic_duplicates_unique_and_bounded (info : Nat → Nat)
    (off : Nat → Nat × Nat) (norig : Nat) (tfaces : List (Nat × Nat × Nat))
    (hinj : ∀ h1 ∈ handlesOf tfaces, ∀ h2 ∈ handlesOf tfaces,
      dkey info off h1 = dkey info off h2 → h1 = h2)
    (hinfo : ∀ h ∈ handlesOf tfaces, info h < norig) :
    (∀ q1 q2 k,
      (periodic_delaunay_post info off norig tfaces).dupIds.get? q1 = some k →
      (periodic_delaunay_post info off norig tfaces).dupIds.get? q2 = some k →
      q1 = q2) ∧
    (∀ q k,
      (periodic_delaunay_post info off norig tfaces).dupIds.get? q = some k →
      ∃ h, h ∈ handlesOf tfaces ∧ dkey info off h = k ∧
        alookup (periodic_delaunay_post info off norig tfaces).handleMap h =
          some (norig + q)) ∧
    (∀ f ∈ (periodic_delaunay_post info off norig tfaces).mFaces ++
        (periodic_delaunay_post info off norig tfaces).mTrimmedFaces,
      f.1 < norig + (periodic_delaunay_post info off norig tfaces).dupIds.length ∧
      f.2.1 < norig + (periodic_delaunay_post info off norig tfaces).dupIds.length ∧
      f.2.2 < norig + (periodic_delaunay_post info off norig tfaces).dupIds.length) := by
  have hinv : PDInv info off norig (handlesOf tfaces)
      (periodic_delaunay_post info off norig tfaces) := by
    unfold periodic_delaunay_post
    apply foldl_inv (PDInv info off norig (handlesOf tfaces)) tfaces
      (pdStep info off norig) ⟨[], [], [], [], []⟩
    · constructor
      · constructor
        · intro h idx hx
          cases hx
        · intro q hq
          simp at hq
      · intro f hf
        simp at hf
    · intro s x hx hs
      exact pdStep_inv info off norig tfaces hinfo s x hx hs
  obtain ⟨⟨hfwd, hbwd⟩, hfb⟩ := hinv
  have hlookup : ∀ q k,
      (periodic_delaunay_post info off norig tfaces).dupIds.get? q = some k →
      ∃ h, h ∈ handlesOf tfaces ∧ dkey info off h = k ∧
        alookup (periodic_delaunay_post info off norig tfaces).handleMap h =
          some (norig + q) := by
    intro q k hk
    have hq : q < (periodic_delaunay_post info off norig tfaces).dupIds.length := by
      by_contra hq
      rw [List.get?_eq_none.mpr (by omega)] at hk
      cases hk
    obtain ⟨h, hmem, hlk, hkey⟩ := hbwd q hq
    rw [hk] at hkey
    exact ⟨h, hmem, (Option.some.inj hkey).symm, hlk⟩
  refine ⟨?_, hlookup, hfb⟩
  intro q1 q2 k hk1 hk2
  obtain ⟨h1, hm1, hd1, hl1⟩ := hlookup q1 k hk1
  obtain ⟨h2, hm2, hd2, hl2⟩ := hlookup q2 k hk2
  have hh : h1 = h2 := hinj h1 hm1 h2 hm2 (by rw [hd1, hd2])
  subst hh
  rw [hl1] at hl2
  have := Option.some.inj hl2
  omega

/-- Handle attributes for the C7 witness: four original vertices (handles
0-3 with zero offset) and handle 4, the periodic image of vertex 0 shifted
by +1 along axis 0. -/
def c7Info : Nat → Nat := fun h => h % 4

def c7Off : Nat → Nat × Nat := fun h => if h = 4 then (1, 0) else (0, 0)

/-- Triangulated faces for the C7 witness: one fully-inside face and one
face with a single out-of-domain corner (handle 4). -/
def c7Faces : List (Nat × Nat × Nat) := [(0, 1, 2), (1, 4, 2)]

/-- Witness for C7: the handle-key bijection and index-range hypotheses
hold for the concrete periodic scenario with `norig = 4`. -/
theorem c7_witness :
    (∀ h1 ∈ handlesOf c7Faces, ∀ h2 ∈ handlesOf c7Faces,
      dkey c7Info c7Off h1 = dkey c7Info c7Off h2 → h1 = h2) ∧
    (∀ h ∈ handlesOf c7Faces, c7Info h < 4) ∧
    ((∀ q1 q2 k,
      (periodic_delaunay_post c7Info c7Off 4 c7Faces).dupIds.get? q1 = some k →
      (periodic_delaunay_post c7Info c7Off 4 c7Faces).dupIds.get? q2 = some k →
      q1 = q2) ∧
    (∀ q k,
      (periodic_delaunay_post c7Info c7Off 4 c7Faces).dupIds.get? q = some k →
      ∃ h, h ∈ handlesOf c7Faces ∧ dkey c7Info c7Off h = k ∧
        alookup (periodic_delaunay_post c7Info c7Off 4 c7Faces).handleMap h =
          some (4 + q)) ∧
    (∀ f ∈ (periodic_delaunay_post c7Info c7Off 4 c7Faces).mFaces ++
        (periodic_delaunay_post c7Info c7Off 4 c7Faces).mTrimmedFaces,
      f.1 < 4 + (periodic_delaunay_post c7Info c7Off 4 c7Faces).dupIds.length ∧
      f.2.1 < 4 + (periodic_delaunay_post c7Info c7Off 4 c7Faces).dupIds.length ∧
      f.2.2 < 4 + (periodic_delaunay_post c7Info c7Off 4 c7Faces).dupIds.length)) :=
  ⟨by decide, by decide,
   c7_periodic_duplicates_unique_and_bounded c7Info c7Off 4 c7Faces
     (by decide) (by decide)⟩
